import Mathlib

/-!
Verification of the pricetag client-side capture pipeline.

This file gives a shallow embedding, in Lean 4, of the code under
`frontend/src` that the specification describes:

* the OCR field extractor (`clientOcr`: `extractItemNumber`, `extractPrice`,
  `extractUnitPrice`, `extractDescription`, the asterisk test and
  `extractPriceTag` itself);
* the frame analyzer (`frameAnalyzer.ts`: `findTagBounds` with its line /
  rectangle passes and the edge-density fallback, `calculateStability`,
  `addToFrameBuffer`);
* the contrast-enhancement step of `imagePreprocess.ts`;
* the multi-frame consensus engine (`useMultiFrameOcr.ts`:
  `calculateConsensus` and `addFrame`).

Modelling conventions:

* JavaScript numbers are modelled as exact rationals (`ℚ`).  The only place
  where IEEE special values matter for the properties studied here is
  `enhanceContrast`, where a uniform image produces `255/0 = Infinity` and
  `0 * Infinity = NaN`; there a small `JSNum` type with `inf` and `nan` is
  used, whose operations follow the ECMAScript semantics exactly.
* `Math.sqrt` (used only in the full-buffer branch of `calculateStability`)
  is abstracted as an explicit function parameter `sqrtQ : ℚ → ℚ`; every
  theorem about `calculateStability` below is quantified over it, i.e. holds
  for every interpretation of the square root.
* The JavaScript regexes are embedded as specialised matchers that follow
  the semantics of `RegExp.exec` with the `g` flag: scan start positions
  left to right, at each position try the pattern with greedy,
  backtracking quantifiers, and resume after the end of a match.
* Exceptions are modelled with `Except String`, carrying the message the
  `catch` block would read from the thrown `Error`.
-/

/-! ## Character classes (ECMAScript, ASCII range)

`\w` is `[A-Za-z0-9_]`, `\d` is `[0-9]`, `\s` is the ECMAScript whitespace
class (the inputs in this development are ASCII; the exotic Unicode space
code points are included for completeness). -/

/-- ECMAScript `\w` (word character). -/
def isWordChar (c : Char) : Bool :=
  c.isAlpha || c.isDigit || c = '_'

/-- Word-character test on an optional character; out of the string counts
as a non-word position, as in ECMAScript `\b`. -/
def isWordOpt (c : Option Char) : Bool :=
  match c with
  | none => false
  | some c => isWordChar c

/-- ECMAScript word boundary `\b` between two (optional) characters. -/
def jsBoundary (prev next : Option Char) : Bool :=
  isWordOpt prev != isWordOpt next

/-- ECMAScript `\s`. -/
def isJsSpace (c : Char) : Bool :=
  c = ' ' || c = '\t' || c = '\n' || c = '\r' ||
  c.val = 11 || c.val = 12 || c.val = 160 || c.val = 65279

/-- Value of a decimal digit string, as computed by `parseInt(s, 10)` on an
all-digit string. -/
def natOfDigits (s : List Char) : Nat :=
  s.foldl (fun n c => n * 10 + (c.toNat - '0'.toNat)) 0

/-! ## ITEM_NUMBER_PATTERN = `/\b(\d{6,8})\b/g`

`extractItemNumber` collects every match of the pattern with an exec loop.
`itemTry` embeds one match attempt at a fixed start position: the leading
`\b`, then `\d{6,8}` greedily (8, then 7, then 6 digits), then the closing
`\b`.  `itemExecAux` embeds the exec loop: `skip` counts the characters of
the current match that still have to be stepped over (the `lastIndex`
advance), `prev` is the character before the current position (needed for
`\b`). -/

/-- One attempt of `/\b(\d{6,8})\b/` at the head of `s`: `k` digits are
accepted when the first `k` characters are digits and the character after
them is not a word character. -/
def itemTryLen (s : List Char) (k : Nat) : Bool :=
  (s.take k).length = k && (s.take k).all Char.isDigit &&
    !isWordOpt ((s.drop k).head?)

/-- Match `/\b(\d{6,8})\b/` at the current position (greedy: 8 first). -/
def itemTry (prev : Option Char) (s : List Char) : Option Nat :=
  if jsBoundary prev s.head? then
    if itemTryLen s 8 then some 8
    else if itemTryLen s 7 then some 7
    else if itemTryLen s 6 then some 6
    else none
  else none

/-- Exec loop of `ITEM_NUMBER_PATTERN` (all matches, in order). -/
def itemExecAux (prev : Option Char) (skip : Nat) : List Char → List (List Char)
  | [] => []
  | c :: rest =>
    match skip with
    | n + 1 => itemExecAux (some c) n rest
    | 0 =>
      match itemTry prev (c :: rest) with
      | some k => (c :: rest).take k :: itemExecAux (some c) (k - 1) rest
      | none => itemExecAux (some c) 0 rest

/-- All matches of `ITEM_NUMBER_PATTERN` in a text. -/
def itemMatches (s : String) : List (List Char) :=
  itemExecAux none 0 s.data

/-- Embedding of `extractItemNumber`: prefer the first 7-digit match
(standard Costco item numbers), else fall back to the first match
(`matches[0]?.[1] || null`; the `|| null` also maps an empty string to
null). -/
def extractItemNumber (s : String) : Option String :=
  let found := itemMatches s
  match found.find? (fun m => m.length = 7) with
  | some m => some (String.mk m)
  | none =>
    match found.head? with
    | some m => if m.isEmpty then none else some (String.mk m)
    | none => none

/-! ## PRICE_PATTERN = `/\$?\s*(\d{1,4})[.,](\d{2})\b/g`

`priceCore` matches `\s*(\d{1,4})[.,](\d{2})\b` at the head of `t` and
returns the consumed length together with the two capture groups.  The
`\s*` quantifier is taken maximally: the whitespace class is disjoint from
`\d` and from `$`, so backtracking to a shorter space run can never turn a
failure into a success.  The `\d{1,4}` quantifier genuinely backtracks and
is tried with 4, 3, 2, 1 digits in this order. -/

/-- Match `\s*(\d{1,4})[.,](\d{2})\b` at the head of `t`; returns
(consumed length, dollar digits, cent digits). -/
def priceCore (t : List Char) : Option (Nat × List Char × List Char) :=
  let sp := t.takeWhile isJsSpace
  let u := t.dropWhile isJsSpace
  let tryD : Nat → Option (Nat × List Char × List Char) := fun d =>
    let ds := u.take d
    if ds.length = d && ds.all Char.isDigit then
      match u.drop d with
      | sep :: c1 :: c2 :: rest =>
        if (sep = '.' || sep = ',') && c1.isDigit && c2.isDigit &&
            !isWordOpt rest.head? then
          some (sp.length + d + 3, ds, [c1, c2])
        else none
      | _ =>
        -- fewer than three remaining characters: `[.,]\d{2}` cannot match
        none
    else none
  (((tryD 4).orElse fun _ => tryD 3).orElse fun _ => tryD 2).orElse fun _ =>
    tryD 1

/-- Match `/\$?\s*(\d{1,4})[.,](\d{2})\b/` at the current position.  The
optional `\$?` is greedy: the branch with `$` consumed is tried first;
on its failure the pattern is retried without consuming the `$` (which
then necessarily fails at `\d`, since `$` is neither space nor digit). -/
def priceTry (s : List Char) : Option (Nat × List Char × List Char) :=
  match s with
  | '$' :: t =>
    match priceCore t with
    | some (n, d, c) => some (n + 1, d, c)
    | none => priceCore s
  | _ => priceCore s

/-- Exec loop of `PRICE_PATTERN` (all matches in order, each as the pair
(dollar digits, cent digits)). -/
def priceExecAux (skip : Nat) : List Char → List (List Char × List Char)
  | [] => []
  | c :: rest =>
    match skip with
    | n + 1 => priceExecAux n rest
    | 0 =>
      match priceTry (c :: rest) with
      | some (n, d, cs) => (d, cs) :: priceExecAux (n - 1) rest
      | none => priceExecAux 0 rest

/-- All matches of `PRICE_PATTERN` in a text. -/
def priceMatches (s : String) : List (List Char × List Char) :=
  priceExecAux 0 s.data

/-- Dollar amount of one price match, as read by `parseInt(m[1], 10)`. -/
def priceDollars (m : List Char × List Char) : Nat :=
  natOfDigits m.1

/-- Numeric value of one price match, as read by
`parseFloat(dollars + "." + cents)` (exact, since the model uses `ℚ`). -/
def priceValue (m : List Char × List Char) : ℚ :=
  (natOfDigits m.1 : ℚ) + (natOfDigits m.2 : ℚ) / 100

/-- Embedding of `extractPrice`: collect all matches, keep the one with
the largest integer dollar amount (`reduce` keeps the earlier match on
ties, because the comparison is strict), return its value and its price
ending `"." + cents`. -/
def extractPrice (s : String) : Option ℚ × Option String :=
  match priceMatches s with
  | [] => (none, none)
  | m :: ms =>
    let best := ms.foldl
      (fun best current =>
        if priceDollars best < priceDollars current then current else best) m
    (some (priceValue best), some (String.mk ('.' :: best.2)))

/-! ## ASTERISK_PATTERN = `/\*/`

`clientOcr` tests the recognized text against the single-character pattern
`/\*/`; `RegExp.test` succeeds exactly when some position of the text holds
a literal asterisk. -/

/-- Embedding of `ASTERISK_PATTERN.test(text)`. -/
def asteriskTest (s : String) : Bool :=
  s.data.any (fun c => c = '*')

/-! ## UNIT_PRICE_PATTERN = `/(\d+[.,]\d{2,4})\s*\/\s*(oz|lb|ct|ea|qt|gal|ml|L|kg|g)/gi`

`extractUnitPrice` calls `text.match(pattern)`; with the `g` flag this
returns the list of full match substrings (no capture groups!), so
`match[1]` and `match[2]` are the second and third full matches.  The
matcher below returns the full matched substrings.  `\d+` before the
separator is taken maximally (digits are disjoint from `[.,]`, so
backtracking cannot help); `\d{2,4}` genuinely backtracks (4, 3, 2);
`\s*` on both sides of the slash is maximal for the same disjointness
reason; the unit alternation is tried left to right, case-insensitively. -/

/-- Unit tokens of the alternation, in source order. -/
def unitAlternatives : List (List Char) :=
  [['o','z'], ['l','b'], ['c','t'], ['e','a'], ['q','t'], ['g','a','l'],
   ['m','l'], ['l'], ['k','g'], ['g']]

/-- Case-insensitive literal-token match at the head of `t`. -/
def tokenAt (tok : List Char) (t : List Char) : Bool :=
  (t.take tok.length).map Char.toLower = tok &&
    (t.take tok.length).length = tok.length

/-- First alternative of the unit alternation matching at the head of `t`
(its length in the input). -/
def unitAltAt (t : List Char) : Option Nat :=
  (unitAlternatives.find? (fun tok => tokenAt tok t)).map List.length

/-- Match `UNIT_PRICE_PATTERN` at the current position; returns the
consumed length. -/
def unitTry (s : List Char) : Option Nat :=
  let ip := s.takeWhile Char.isDigit
  if ip.isEmpty then none
  else
    match s.drop ip.length with
    | sep :: t =>
      if sep = '.' || sep = ',' then
        let tryF : Nat → Option Nat := fun f =>
          let fs := t.take f
          if fs.length = f && fs.all Char.isDigit then
            let t2 := t.drop f
            let sp1 := t2.takeWhile isJsSpace
            match t2.dropWhile isJsSpace with
            | '/' :: t3 =>
              let sp2 := t3.takeWhile isJsSpace
              match unitAltAt (t3.dropWhile isJsSpace) with
              | some ulen =>
                some (ip.length + 1 + f + sp1.length + 1 + sp2.length + ulen)
              | none => none
            | _ => none
          else none
        ((tryF 4).orElse fun _ => tryF 3).orElse fun _ => tryF 2
      else none
    | [] => none

/-- Exec loop of `UNIT_PRICE_PATTERN`; returns the full matched
substrings, as `String.prototype.match` does with the `g` flag. -/
def unitExecAux (skip : Nat) : List Char → List (List Char)
  | [] => []
  | c :: rest =>
    match skip with
    | n + 1 => unitExecAux n rest
    | 0 =>
      match unitTry (c :: rest) with
      | some n => (c :: rest).take n :: unitExecAux (n - 1) rest
      | none => unitExecAux 0 rest

/-- All full matches of `UNIT_PRICE_PATTERN` in a text. -/
def unitMatches (s : String) : List (List Char) :=
  unitExecAux 0 s.data

/-- Embedding of `parseFloat` restricted to the strings it is applied to
here (a digit run, optionally a `.` and a trailing digit run; parsing
stops at the first character that cannot extend the number). -/
def jsParseFloat (s : List Char) : ℚ :=
  let ip := s.takeWhile Char.isDigit
  match s.drop ip.length with
  | '.' :: t =>
    let fp := t.takeWhile Char.isDigit
    (natOfDigits ip : ℚ) + (natOfDigits fp : ℚ) / (10 ^ fp.length : ℕ)
  | _ => (natOfDigits ip : ℚ)

/-- Replace the first `,` by `.` (`String.prototype.replace` with a string
pattern replaces only the first occurrence). -/
def replaceFirstComma : List Char → List Char
  | [] => []
  | c :: rest => if c = ',' then '.' :: rest else c :: replaceFirstComma rest

/-- Embedding of `extractUnitPrice`.  `text.match(g-flagged pattern)`
returns the full match substrings, so `match[1]`/`match[2]` index the
second and third matches; when those are absent the `.replace` /
`.toLowerCase` calls throw a `TypeError` (modelled as `Except.error`
with a stand-in message), which `extractPriceTag` catches. -/
def extractUnitPrice (s : String) : Except String (Option ℚ × Option String) :=
  match unitMatches s with
  | [] => Except.ok (none, none)
  | [_] => Except.error "Cannot read properties of undefined"
  | [_, _] => Except.error "Cannot read properties of undefined"
  | _ :: m1 :: m2 :: _ =>
    Except.ok (some (jsParseFloat (replaceFirstComma m1)),
      some (String.mk (m2.map Char.toLower)))

/-! ## Description extraction -/

/-- Maximal runs of characters satisfying `p`, of length at least `minLen`,
in order.  This is the match list of a g-flagged regex of the shape
`[class][class]{minLen-1,}` (greedy, so each match is a whole maximal run;
runs shorter than `minLen` yield no match at any of their positions).
`prevIn` records whether the previous character belonged to a run. -/
def charRuns (p : Char → Bool) (minLen : Nat) : Bool → List Char → List (List Char)
  | _, [] => []
  | prevIn, c :: rest =>
    (if p c && !prevIn && decide (minLen ≤ ((c :: rest).takeWhile p).length)
      then [(c :: rest).takeWhile p] else []) ++
      charRuns p minLen (p c) rest

/-- JavaScript `word[i] === word[i].toUpperCase()` (non-letters count as
uppercase, since `toUpperCase` maps them to themselves). -/
def jsIsUpperLike (c : Char) : Bool :=
  c.toUpper = c

/-- Number of adjacent case changes in a word. -/
def caseChanges (w : List Char) : Nat :=
  (w.zip w.tail).countP (fun p => jsIsUpperLike p.1 != jsIsUpperLike p.2)

/-- Vowel test (`[aeiouAEIOU]`). -/
def isVowel (c : Char) : Bool :=
  c = 'a' || c = 'e' || c = 'i' || c = 'o' || c = 'u' ||
  c = 'A' || c = 'E' || c = 'I' || c = 'O' || c = 'U'

/-- Three equal consecutive characters somewhere (`/(.)\1{2,}/`,
case-sensitive). -/
def hasTripleRepeat : List Char → Bool
  | a :: b :: c :: rest => (a = b && b = c) || hasTripleRepeat (b :: c :: rest)
  | _ => false

/-- Embedding of `isGarbageWord`. -/
def isGarbageWord (w : List Char) : Bool :=
  -- too short
  (w.length < 3) ||
  -- repeated characters (like "aaa")
  hasTripleRepeat w ||
  -- alternating-case noise: more than 60% of adjacent pairs change case
  (decide ((caseChanges w : ℚ) > (w.length : ℚ) * (6/10))) ||
  -- a single distinct letter, repeated
  ((w.map Char.toLower).dedup.length = 1 && w.length > 1) ||
  -- no vowel in a 4+-letter word
  (4 ≤ w.length && !w.any isVowel) ||
  -- noise patterns: all vowels (2+), all non-vowels (4+), all one letter
  (2 ≤ w.length && w.all isVowel) ||
  (4 ≤ w.length && w.all (fun c => !isVowel c)) ||
  (2 ≤ w.length && (w.map Char.toLower).dedup.length = 1)

/-- Stop list of `extractDescription`. -/
def skipWords : List String :=
  ["oz", "lb", "ct", "ea", "qt", "gal", "ml", "kg", "per", "unit",
   "price", "item", "each", "total", "sale", "reg", "save", "sell",
   "liter", "litre", "count", "pack", "size"]

/-- Embedding of `extractDescription` (the unused `itemNumber` argument is
kept for interface fidelity). -/
def extractDescription (text : String) (_itemNumber : Option String) :
    Option String :=
  let lines := text.splitOn "\n"
  -- uppercase words of 4+ letters (`/[A-Z][A-Z]{3,}/g` per line)
  let descriptionWords :=
    lines.flatMap (fun line =>
      (charRuns Char.isUpper 4 false line.data).filter (fun w =>
        !skipWords.contains (String.mk (w.map Char.toLower)) &&
          !isGarbageWord w))
  let firstPass :=
    if 1 ≤ descriptionWords.length then
      let result := String.intercalate " "
        ((descriptionWords.take 5).map String.mk)
      if 4 ≤ result.length then some result else none
    else none
  match firstPass with
  | some r => some r
  | none =>
    -- fallback: mixed-case words of 4+ letters (`/[A-Za-z]{4,}/g`)
    match charRuns Char.isAlpha 4 false text.data with
    | [] => none
    | words =>
      let filteredWords := words.filter (fun w =>
        !skipWords.contains (String.mk (w.map Char.toLower)) &&
          !isGarbageWord w && w.any isVowel)
      if filteredWords.isEmpty then none
      else
        let avgLen : ℚ :=
          ((filteredWords.map List.length).sum : ℚ) / (filteredWords.length : ℚ)
        if avgLen < 4 then none
        else
          let result := String.intercalate " "
            ((filteredWords.take 5).map String.mk)
          if result.length < 6 then none else some result

/-! ## extractPriceTag -/

/-- Structured read of one frame's recognized text (`OCRExtraction`). -/
structure OCRExtraction where
  success : Bool
  confidence : ℚ
  itemNumber : Option String
  price : Option ℚ
  priceEnding : Option String
  unitPrice : Option ℚ
  unitMeasure : Option String
  description : Option String
  hasAsterisk : Bool
  error : Option String
deriving DecidableEq, Repr

/-- JavaScript `Math.round` (round half toward positive infinity). -/
def jsRound (q : ℚ) : ℤ :=
  Int.floor (q + 1/2)

/-- The try-block body of `extractPriceTag`, given the text and the 0–100
confidence delivered by the recognition engine.  `extractUnitPrice` can
itself throw (a `TypeError`, see above), which propagates to the same
catch block. -/
def extractBody (text : String) (engineConfidence : ℚ) :
    Except String OCRExtraction :=
  let confidence := engineConfidence / 100
  let itemNumber := extractItemNumber text
  let pe := extractPrice text
  match extractUnitPrice text with
  | Except.error msg => Except.error msg
  | Except.ok (unitPrice, unitMeasure) =>
    let hasAsterisk := asteriskTest text
    let description := extractDescription text itemNumber
    let success := itemNumber.isSome && pe.1.isSome
    let adjusted1 := if itemNumber.isNone then confidence * (5/10) else confidence
    let adjusted2 := if pe.1.isNone then adjusted1 * (3/10) else adjusted1
    Except.ok
      { success := success
        confidence := (jsRound (adjusted2 * 100) : ℚ) / 100
        itemNumber := itemNumber
        price := pe.1
        priceEnding := pe.2
        unitPrice := unitPrice
        unitMeasure := unitMeasure
        description := description
        hasAsterisk := hasAsterisk
        error := none }

/-- Embedding of `extractPriceTag`.  The input models the outcome of
preprocessing plus the recognition call: `Except.ok (text, confidence)` on
success, `Except.error message` when either throws (for a thrown `Error`
the message is `error.message`; a non-`Error` throw is represented by the
message "OCR failed", exactly as the catch block computes it). -/
def extractPriceTag (recognition : Except String (String × ℚ)) :
    OCRExtraction :=
  let run :=
    match recognition with
    | Except.error msg => Except.error msg
    | Except.ok (text, conf) => extractBody text conf
  match run with
  | Except.ok e => e
  | Except.error msg =>
    { success := false
      confidence := 0
      itemNumber := none
      price := none
      priceEnding := none
      unitPrice := none
      unitMeasure := none
      description := none
      hasAsterisk := false
      error := some msg }

/-! ## Frame analyzer: tag-region detection

The analyzer works on an edge map (the Sobel-thresholded image), addressed
as a flat array `edges[y * width + x]`, modelled as a function
`Nat → Nat`.  All arithmetic is done in `ℚ`, matching JavaScript's exact
behaviour on the integral and half-integral values that occur here. -/

/-- Hypothesized tag rectangle (`TagBounds`). -/
structure TagBounds where
  x : ℚ
  y : ℚ
  width : ℚ
  height : ℚ
  confidence : ℚ
deriving DecidableEq, Repr

/-- A point of the edge image. -/
structure Pt where
  x : Nat
  y : Nat
deriving DecidableEq, Repr

/-- A detected line segment (`start`/`end` of the source; `end` is a Lean
keyword, so the second endpoint is called `stop`). -/
structure Line where
  start : Pt
  stop : Pt
  length : Nat
deriving DecidableEq, Repr

/-- Scan state of the line finders: accumulated lines, `lineStart`
(-1 when outside a run, as in the source) and `consecutiveEdges`. -/
def lineScanStep (minLength : ℚ) (mk : Int → Nat → Nat → Line)
    (st : List Line × Int × Nat) (pos : Nat) (isEdge : Bool) :
    List Line × Int × Nat :=
  let (ls, lineStart, consec) := st
  if isEdge then
    (ls, if lineStart = -1 then (pos : Int) else lineStart, consec + 1)
  else
    if (consec : ℚ) > minLength then
      (ls ++ [mk lineStart (pos - 1) consec], -1, 0)
    else (ls, -1, 0)

/-- Embedding of `findHorizontalLines`: every 5th row is scanned left to
right; a run of consecutive edge pixels longer than `width * 0.1` that
ends before the row does is recorded (a run still open at the end of the
row is discarded, as in the source). -/
def findHorizontalLines (edges : Nat → Nat) (width height : Nat) :
    List Line :=
  let minLength : ℚ := (width : ℚ) * (1/10)
  ((List.range height).filter (fun y => y % 5 = 0)).foldl
    (fun lines y =>
      ((List.range width).foldl
        (fun st x =>
          lineScanStep minLength
            (fun ls ex consec =>
              { start := { x := ls.toNat, y := y },
                stop := { x := ex, y := y }, length := consec })
            st x (edges (y * width + x) > 0))
        (lines, -1, 0)).1)
    []

/-- Embedding of `findVerticalLines` (every 5th column, scanned top to
bottom). -/
def findVerticalLines (edges : Nat → Nat) (width height : Nat) :
    List Line :=
  let minLength : ℚ := (height : ℚ) * (1/10)
  ((List.range width).filter (fun x => x % 5 = 0)).foldl
    (fun lines x =>
      ((List.range height).foldl
        (fun st y =>
          lineScanStep minLength
            (fun ls ey consec =>
              { start := { x := x, y := ls.toNat },
                stop := { x := x, y := ey }, length := consec })
            st y (edges (y * width + x) > 0))
        (lines, -1, 0)).1)
    []

/-- Ordered pairs `(l[i], l[j])` with `i < j`, in the nested-loop order of
the source. -/
def pairsOf : List α → List (α × α)
  | [] => []
  | a :: t => t.map (Prod.mk a) ++ pairsOf t

/-- Embedding of `findRectangles`: pair horizontal lines as top/bottom,
check the vertical gap and horizontal overlap, then look for vertical
lines whose endpoints meet both within a 20-pixel tolerance. -/
def findRectangles (horizontalLines verticalLines : List Line)
    (width height : Nat) : List TagBounds :=
  let tolerance : Nat := 20
  (pairsOf horizontalLines).flatMap (fun tb =>
    let top := tb.1
    let bottom := tb.2
    let yDiff : Nat := max top.start.y bottom.start.y -
      min top.start.y bottom.start.y
    if (yDiff : ℚ) < (height : ℚ) * (1/10) ∨
        (yDiff : ℚ) > (height : ℚ) * (8/10) then []
    else
      let xOverlap : Int := (min top.stop.x bottom.stop.x : Int) -
        (max top.start.x bottom.start.x : Int)
      if (xOverlap : ℚ) < (width : ℚ) * (1/10) then []
      else
        verticalLines.flatMap (fun left =>
          verticalLines.flatMap (fun right =>
            if left.start.x ≥ right.start.x then []
            else
              let leftNearTop :=
                ((left.start.y : Int) - (top.start.y : Int)).natAbs < tolerance
              let leftNearBottom :=
                ((left.stop.y : Int) - (bottom.start.y : Int)).natAbs < tolerance
              let rightNearTop :=
                ((right.start.y : Int) - (top.start.y : Int)).natAbs < tolerance
              let rightNearBottom :=
                ((right.stop.y : Int) - (bottom.start.y : Int)).natAbs < tolerance
              if leftNearTop && leftNearBottom && rightNearTop &&
                  rightNearBottom then
                [{ x := (left.start.x : ℚ),
                   y := (min top.start.y left.start.y : ℚ),
                   width := (right.start.x : ℚ) - (left.start.x : ℚ),
                   height := (yDiff : ℚ),
                   confidence := 0 }]
              else [])))

/-! ## Edge-density fallback -/

/-- Grid region tracked by the flood fill (cell coordinates). -/
structure GridRegion where
  minX : Nat
  minY : Nat
  maxX : Nat
  maxY : Nat
deriving DecidableEq, Repr

/-- Edge density of one grid cell: edge pixels in the cell divided by
`cellW * cellH` (cell bounds by `Math.floor`, as in the source). -/
def cellDensity (edges : Nat → Nat) (width height gy gx : Nat) : ℚ :=
  let cellW : ℚ := (width : ℚ) / 10
  let cellH : ℚ := (height : ℚ) / 10
  let startX := (Int.floor ((gx : ℚ) * cellW)).toNat
  let startY := (Int.floor ((gy : ℚ) * cellH)).toNat
  let endX := (Int.floor (((gx : ℚ) + 1) * cellW)).toNat
  let endY := (Int.floor (((gy : ℚ) + 1) * cellH)).toNat
  let count :=
    (((List.range (endY - startY)).map (· + startY)).flatMap (fun y =>
      ((List.range (endX - startX)).map (· + startX)).filter (fun x =>
        edges (y * width + x) > 0))).length
  (count : ℚ) / (cellW * cellH)

/-- One BFS flood fill of `findTagByEdgeDensity`.  Queue entries use `Int`
coordinates because the source pushes out-of-range neighbours and rejects
them only when popped; the visited set (`Set` of `"x,y"` strings in the
source) is a list of coordinate pairs.  The fuel only guards Lean
totality: each visit enqueues four neighbours and cells are visited at
most once, so at most `1 + 4 * 100` entries ever enter the queue and a
fuel of 1000 is never exhausted on a 10×10 grid. -/
def floodFill (density : Nat → Nat → ℚ) :
    Nat → List (Int × Int) → List (Int × Int) → GridRegion → Nat →
    GridRegion × Nat × List (Int × Int)
  | 0, _, visited, region, size => (region, size, visited)
  | _ + 1, [], visited, region, size => (region, size, visited)
  | fuel + 1, (x, y) :: queue, visited, region, size =>
    if (x, y) ∈ visited then floodFill density fuel queue visited region size
    else if x < 0 ∨ 10 ≤ x ∨ y < 0 ∨ 10 ≤ y then
      floodFill density fuel queue visited region size
    else if density y.toNat x.toNat < 1/10 then
      floodFill density fuel queue visited region size
    else
      let visited' := (x, y) :: visited
      let region' : GridRegion :=
        { minX := min region.minX x.toNat, minY := min region.minY y.toNat,
          maxX := max region.maxX x.toNat, maxY := max region.maxY y.toNat }
      let queue' := queue ++ [(x - 1, y), (x + 1, y), (x, y - 1), (x, y + 1)]
      floodFill density fuel queue' visited' region' (size + 1)

/-- Embedding of `findTagByEdgeDensity`: scan the 10×10 grid row-major,
flood-fill every unvisited cell above the density threshold, keep the
largest connected region, convert it back to pixels with half a cell of
padding, clamping `x`/`y` below by 0 and `width`/`height` above by the
frame dimensions. -/
def findTagByEdgeDensity (edges : Nat → Nat) (width height : Nat) :
    Option TagBounds :=
  let cellW : ℚ := (width : ℚ) / 10
  let cellH : ℚ := (height : ℚ) / 10
  let density := fun gy gx => cellDensity edges width height gy gx
  let scan := (List.range 10).flatMap (fun gy =>
    (List.range 10).map (fun gx => (gy, gx)))
  let final := scan.foldl
    (fun (st : List (Int × Int) × Option GridRegion × Nat) cell =>
      let (visited, best, maxSize) := st
      let (gy, gx) := cell
      if density gy gx < 1/10 then st
      else if ((gx : Int), (gy : Int)) ∈ visited then st
      else
        let (region, size, visited') := floodFill density 1000
          [((gx : Int), (gy : Int))] visited
          { minX := gx, minY := gy, maxX := gx, maxY := gy } 0
        if size > maxSize then (visited', some region, size)
        else (visited', best, maxSize))
    ([], none, 0)
  match final.2.1 with
  | none => none
  | some region =>
    if final.2.2 < 4 then none
    else
      let padding := cellW * (1/2)
      some
        { x := max 0 ((region.minX : ℚ) * cellW - padding)
          y := max 0 ((region.minY : ℚ) * cellH - padding)
          width := min (width : ℚ)
            (((region.maxX : ℚ) - (region.minX : ℚ) + 1) * cellW + padding * 2)
          height := min (height : ℚ)
            (((region.maxY : ℚ) - (region.minY : ℚ) + 1) * cellH + padding * 2)
          confidence := (final.2.2 : ℚ) / 100 }

/-- Embedding of `findTagBounds`: score every rectangle candidate (30%
centering, 40% area ratio against the ideal 0.2, 30% aspect ratio against
the ideal 2.0, with hard gates on area ratio [0.03, 0.90] and aspect
[1.0, 4.0]), keep the best strictly-improving candidate, and fall back to
the edge-density search when none scores. -/
def findTagBounds (edges : Nat → Nat) (width height : Nat) :
    Option TagBounds :=
  let horizontalLines := findHorizontalLines edges width height
  let verticalLines := findVerticalLines edges width height
  let rectangles := findRectangles horizontalLines verticalLines width height
  let frameArea : ℚ := (width : ℚ) * (height : ℚ)
  let best := rectangles.foldl
    (fun (st : Option TagBounds × ℚ) rect =>
      let area := rect.width * rect.height
      let areaRatio := area / frameArea
      let aspectRatio := rect.width / rect.height
      if areaRatio < 3/100 ∨ areaRatio > 90/100 then st
      else if aspectRatio < 1 ∨ aspectRatio > 4 then st
      else
        let centerX := rect.x + rect.width / 2
        let centerY := rect.y + rect.height / 2
        let centerScore := 1 -
          (|centerX - (width : ℚ) / 2| / ((width : ℚ) / 2) * (1/2) +
           |centerY - (height : ℚ) / 2| / ((height : ℚ) / 2) * (1/2))
        let idealAreaRatio : ℚ := 2/10
        let areaScore := 1 - |areaRatio - idealAreaRatio| / idealAreaRatio
        let idealAspect : ℚ := 2
        let aspectScore := 1 - |aspectRatio - idealAspect| / idealAspect
        let score := centerScore * (3/10) + areaScore * (4/10) +
          aspectScore * (3/10)
        if score > st.2 then
          (some { rect with confidence := score }, score)
        else st)
    (none, 0)
  match best.1 with
  | some r => some r
  | none => findTagByEdgeDensity edges width height

/-! ## Stability tracking and the frame buffer

The source keeps `stabilityBuffer` and `frameBuffer` as module-level
mutable state; the embedding passes the buffers explicitly and returns the
updated buffer.  `Math.sqrt` appears only in the full-buffer branch of
`calculateStability` and is abstracted as the parameter `sqrtQ`. -/

/-- Embedding of `calculateStability`.  Returns the stability value and
the updated buffer.  A frame without bounds resets the buffer and scores
0; with fewer than 3 entries the partial credit
`length / 3 * 0.5` is returned; a full buffer combines position and size
variance through `Math.sqrt` (`sqrtQ`). -/
def calculateStability (sqrtQ : ℚ → ℚ) (stabilityBuffer : List TagBounds)
    (currentBounds : Option TagBounds) : ℚ × List TagBounds :=
  match currentBounds with
  | none => (0, [])
  | some b =>
    let buf1 := stabilityBuffer ++ [b]
    let buf := if buf1.length > 3 then buf1.drop 1 else buf1
    if buf.length < 3 then ((buf.length : ℚ) / 3 * (5/10), buf)
    else
      let centers := buf.map (fun tb => (tb.x + tb.width / 2, tb.y + tb.height / 2))
      let n : ℚ := (centers.length : ℚ)
      let avgX := (centers.map Prod.fst).sum / n
      let avgY := (centers.map Prod.snd).sum / n
      let variance := (centers.map (fun c =>
        (c.1 - avgX) ^ 2 + (c.2 - avgY) ^ 2)).sum / n
      let sizes := buf.map (fun tb => tb.width * tb.height)
      let avgSize := sizes.sum / (sizes.length : ℚ)
      let sizeVariance := (sizes.map (fun sz => (sz - avgSize) ^ 2)).sum /
        (sizes.length : ℚ)
      let positionStability := max 0 (1 - sqrtQ variance / 50)
      let sizeStability := max 0 (1 - sqrtQ sizeVariance / avgSize)
      (positionStability * (7/10) + sizeStability * (3/10), buf)

/-- Quality/region verdict for one sampled frame (`FrameAnalysis`). -/
structure FrameAnalysis where
  blurScore : ℚ
  isSharp : Bool
  tagDetected : Bool
  tagBounds : Option TagBounds
  stability : ℚ
  timestamp : ℤ
deriving DecidableEq, Repr

/-- A retained frame (`BufferedFrame`).  The cloned canvas carries the
same pixels as `imageData`, so the image payload is modelled once. -/
structure BufferedFrame where
  imageData : List Nat
  analysis : FrameAnalysis
deriving DecidableEq, Repr

/-- Embedding of `addToFrameBuffer`: push, then evict the oldest entry
when the buffer exceeds `FRAME_BUFFER_SIZE = 10`. -/
def addToFrameBuffer (frameBuffer : List BufferedFrame)
    (frame : BufferedFrame) : List BufferedFrame :=
  let pushed := frameBuffer ++ [frame]
  if pushed.length > 10 then pushed.drop 1 else pushed

/-! ## Contrast enhancement (`imagePreprocess.ts`)

`enhanceContrast` is the one place where IEEE special values are
essential: on a zero-variance histogram `scale` is `255/0 = Infinity` and
the remap computes `0 * Infinity = NaN`, which the `Uint8ClampedArray`
store turns into 0.  `JSNum` models exactly the value space reachable
here (finite rationals, `Infinity`, `NaN`; all finite intermediate values
are exact in binary floating point or only ever compared/clamped after
`Math.round`, so `ℚ` is faithful for the finite case). -/

/-- JavaScript number restricted to the values reachable in
`enhanceContrast`. -/
inductive JSNum where
  | fin : ℚ → JSNum
  | inf : JSNum
  | nan : JSNum
deriving DecidableEq, Repr

/-- Division `a / b` for a nonnegative finite numerator as it occurs in
`scale = 255 / (pixels - cdfMin)`: division by zero gives `Infinity`
(`NaN` for `0/0`). -/
def JSNum.div : JSNum → JSNum → JSNum
  | fin a, fin b => if b = 0 then (if a = 0 then nan else inf) else fin (a / b)
  | nan, _ => nan
  | _, nan => nan
  | inf, inf => nan
  | inf, fin _ => inf
  | fin _, inf => fin 0

/-- Multiplication with the ECMAScript rules `0 * Infinity = NaN` and
`NaN * _ = NaN`. -/
def JSNum.mul : JSNum → JSNum → JSNum
  | fin a, fin b => fin (a * b)
  | nan, _ => nan
  | _, nan => nan
  | inf, inf => inf
  | inf, fin a => if a = 0 then nan else inf
  | fin a, inf => if a = 0 then nan else inf

/-- `Math.round`: half-up on finite values, identity on `Infinity`,
`NaN` on `NaN`. -/
def JSNum.round : JSNum → JSNum
  | fin q => fin ((Int.floor (q + 1/2) : ℤ) : ℚ)
  | inf => inf
  | nan => nan

/-- `Math.min` (any `NaN` argument wins). -/
def JSNum.jmin : JSNum → JSNum → JSNum
  | fin a, fin b => fin (min a b)
  | nan, _ => nan
  | _, nan => nan
  | inf, b => b
  | a, inf => a

/-- `Math.max` (any `NaN` argument wins). -/
def JSNum.jmax : JSNum → JSNum → JSNum
  | fin a, fin b => fin (max a b)
  | nan, _ => nan
  | _, nan => nan
  | inf, _ => inf
  | _, inf => inf

/-- `Uint8ClampedArray` store: `NaN` becomes 0, values are clamped to
[0, 255] (the stored values here are already rounded integers). -/
def JSNum.toByte : JSNum → Nat
  | fin q => if q ≤ 0 then 0 else if 255 ≤ q then 255 else (Int.floor q).toNat
  | inf => 255
  | nan => 0

/-- Embedding of `enhanceContrast`, acting on the per-pixel grayscale
values (the source reads the red channel of the RGBA buffer and writes
the result to all three colour channels; after the grayscale pass all
three channels are equal, so the image is modelled as one value per
pixel). -/
def enhanceContrast (width height : Nat) (data : List Nat) : List Nat :=
  let histogram : Nat → Nat := fun v => data.countP (fun p => p = v)
  let cdf : Nat → Nat := fun v => ((List.range (v + 1)).map histogram).sum
  let pixels := width * height
  let cdfMin := (((List.range 256).map cdf).find? (fun v => v > 0)).getD 0
  let scale := JSNum.div (JSNum.fin 255) (JSNum.fin ((pixels : ℚ) - (cdfMin : ℚ)))
  data.map (fun v =>
    let newVal := JSNum.round (JSNum.mul
      (JSNum.fin ((cdf v : ℚ) - (cdfMin : ℚ))) scale)
    (JSNum.jmax (JSNum.fin 0) (JSNum.jmin (JSNum.fin 255) newVal)).toByte)

/-! ## Multi-frame consensus engine (`useMultiFrameOcr.ts`)

JavaScript `Map`s preserve insertion order and `forEach` iterates in that
order; they are modelled as association lists updated in place, with new
keys appended.  The vote selections use a strict `>` against the running
best, so the first key reaching the maximal weight wins. -/

/-- One retained frame result (`FrameResult`). -/
structure FrameResult where
  extraction : OCRExtraction
  timestamp : ℤ
deriving DecidableEq, Repr

/-- Voted aggregate (`MultiFrameResult`). -/
structure MultiFrameResult where
  itemNumber : Option String
  itemNumberConfidence : ℚ
  price : Option ℚ
  priceConfidence : ℚ
  priceEnding : Option String
  hasAsterisk : Bool
  description : Option String
  frameCount : Nat
  overallConfidence : ℚ
deriving DecidableEq, Repr

/-- `Map.set(k, (Map.get(k) || 0) + c)` on an insertion-ordered map:
update the (unique) entry with key `k` in place, or append a new entry. -/
def assocAdd : List (String × ℚ) → String → ℚ → List (String × ℚ)
  | [], k, c => [(k, c)]
  | p :: t, k, c =>
    if p.1 = k then (p.1, p.2 + c) :: t else p :: assocAdd t k c

/-- Item-number votes: group frames by `extraction.itemNumber` (the
JavaScript truthiness test skips both `null` and the empty string),
accumulating each frame's confidence. -/
def itemVotes (frames : List FrameResult) : List (String × ℚ) :=
  frames.foldl
    (fun acc f =>
      match f.extraction.itemNumber with
      | none => acc
      | some k => if k = "" then acc else assocAdd acc k f.extraction.confidence)
    []

/-- The `forEach` selection loop: keep the first entry whose weight
strictly exceeds the running best (initially `null` / 0). -/
def pickBest (votes : List (String × ℚ)) : Option String × ℚ :=
  votes.foldl
    (fun st kv => if kv.2 > st.2 then (some kv.1, kv.2) else st)
    (none, 0)

/-- `price.toFixed(2)` as a grouping key.  The prices reaching the map are
the extractor's exact two-decimal values, on which `toFixed(2)` is the
decimal representation of `round(price * 100)` cents; two prices collide
exactly when those rounded cent counts are equal, so the key is modelled
as that integer. -/
def priceKey (q : ℚ) : ℤ :=
  jsRound (q * 100)

/-- Price votes: grouped by `toFixed(2)`, keeping the first-seen price of
each group and accumulating confidence weights. -/
def priceVotes (frames : List FrameResult) : List (ℤ × ℚ × ℚ) :=
  frames.foldl
    (fun acc f =>
      match f.extraction.price with
      | none => acc
      | some p =>
        if acc.any (fun e => e.1 = priceKey p) then
          acc.map (fun e =>
            if e.1 = priceKey p then (e.1, e.2.1, e.2.2 + f.extraction.confidence)
            else e)
        else acc ++ [(priceKey p, p, f.extraction.confidence)])
    []

/-- Selection loop over the price votes (weights compared strictly). -/
def pickBestPrice (votes : List (ℤ × ℚ × ℚ)) : Option ℚ × ℚ :=
  votes.foldl
    (fun st e => if e.2.2 > st.2 then (some e.2.1, e.2.2) else st)
    (none, 0)

/-- Description votes: plurality by exact string (truthiness again skips
`null` and the empty string). -/
def descriptionVotes (frames : List FrameResult) : List (String × Nat) :=
  frames.foldl
    (fun acc f =>
      match f.extraction.description with
      | none => acc
      | some d =>
        if d = "" then acc
        else if acc.any (fun p => p.1 = d) then
          acc.map (fun p => if p.1 = d then (p.1, p.2 + 1) else p)
        else acc ++ [(d, 1)])
    []

/-- Selection loop over the description votes. -/
def pickBestDescription (votes : List (String × Nat)) : Option String × Nat :=
  votes.foldl
    (fun st kv => if kv.2 > st.2 then (some kv.1, kv.2) else st)
    (none, 0)

/-- Decimal digits of a nonnegative cent count, padded to two places
(`cents.toString().padStart(2, '0')`). -/
def padStart2 (s : String) : String :=
  String.mk (List.replicate (2 - s.length) '0') ++ s

/-- JavaScript `x % 1` for the nonnegative prices occurring here
(the remainder truncates toward zero). -/
def jsMod1 (q : ℚ) : ℚ :=
  if 0 ≤ q then q - ((Int.floor q : ℤ) : ℚ) else q - ((Int.ceil q : ℤ) : ℚ)

/-- String form of an integer (used for the cent count). -/
def jsIntStr (n : ℤ) : String :=
  if n < 0 then "-" ++ toString (-n).toNat else toString n.toNat

/-- Embedding of `calculateConsensus`. -/
def calculateConsensus (frames : List FrameResult) : MultiFrameResult :=
  match frames with
  | [] =>
    { itemNumber := none, itemNumberConfidence := 0, price := none,
      priceConfidence := 0, priceEnding := none, hasAsterisk := false,
      description := none, frameCount := 0, overallConfidence := 0 }
  | _ :: _ =>
    let itemPick := pickBest (itemVotes frames)
    let pricePick := pickBestPrice (priceVotes frames)
    let totalConfidence := (frames.map (fun f => f.extraction.confidence)).sum
    let itemNumberConfidence :=
      if totalConfidence > 0 then itemPick.2 / totalConfidence else 0
    let priceConfidence :=
      if totalConfidence > 0 then pricePick.2 / totalConfidence else 0
    let priceEnding :=
      match pricePick.1 with
      | none => none
      | some bestPrice =>
        let cents := jsRound (jsMod1 bestPrice * 100)
        some ("." ++ padStart2 (jsIntStr cents))
    let asteriskCount := frames.countP (fun f => f.extraction.hasAsterisk)
    let hasAsterisk := (asteriskCount : ℚ) > (frames.length : ℚ) / 2
    let descPick := pickBestDescription (descriptionVotes frames)
    let overallConfidence := (itemNumberConfidence + priceConfidence) / 2
    { itemNumber := itemPick.1
      itemNumberConfidence := itemNumberConfidence
      price := pricePick.1
      priceConfidence := priceConfidence
      priceEnding := priceEnding
      hasAsterisk := decide hasAsterisk
      description := descPick.1
      frameCount := frames.length
      overallConfidence := overallConfidence }

/-- Hook state of `useMultiFrameOcr` that `addFrame` touches. -/
structure MultiFrameState where
  frames : List FrameResult
  result : Option MultiFrameResult
  frameCount : Nat
  hasResult : Bool
  isProcessing : Bool
deriving DecidableEq, Repr

/-- Retention step of `addFrame`: push the new frame, drop frames older
than the 3-second window, keep the most recent 5 (`slice(-5)`). -/
def addFrameKept (now : ℤ) (extraction : OCRExtraction)
    (frames : List FrameResult) : List FrameResult :=
  let pushed := frames ++ [{ extraction := extraction, timestamp := now }]
  let fresh := pushed.filter (fun f => now - f.timestamp < 3000)
  if fresh.length > 5 then fresh.drop (fresh.length - 5) else fresh

/-- Embedding of `addFrame`, with the extraction already computed
(`extractPriceTag` never rejects, see below, so the catch branch of
`addFrame` is unreachable).  Returns the hook's boolean result and the
updated state.  An unsuccessful extraction is dropped: the function
returns `false` and only `isProcessing` changes. -/
def addFrame (now : ℤ) (extraction : OCRExtraction)
    (st : MultiFrameState) : Bool × MultiFrameState :=
  if !extraction.success then
    (false, { st with isProcessing := false })
  else
    let kept := addFrameKept now extraction st.frames
    let result := calculateConsensus kept
    let hasConfidentResult :=
      decide (result.itemNumberConfidence ≥ 6/10) ||
      decide (result.priceConfidence ≥ 6/10)
    (hasConfidentResult,
      { frames := kept, result := some result, frameCount := kept.length,
        hasResult := hasConfidentResult, isProcessing := false })

/-! ## Specification-side definitions

These definitions render phrases of the specification (not the source) and
are only used to compare the code against the spec's wording. -/

/-- Specification wording for C3: the word-bounded maximal digit runs of
length 6 to 8, in order of appearance.  A run qualifies when the
character before it (if any) and the character after it (if any) are not
word characters. -/
def boundedRunsAux (prev : Option Char) : List Char → List (List Char)
  | [] => []
  | c :: rest =>
    (if c.isDigit && !isWordOpt prev &&
        decide (6 ≤ ((c :: rest).takeWhile Char.isDigit).length) &&
        decide (((c :: rest).takeWhile Char.isDigit).length ≤ 8) &&
        !isWordOpt (((c :: rest).dropWhile Char.isDigit).head?)
      then [(c :: rest).takeWhile Char.isDigit] else []) ++
      boundedRunsAux (some c) rest

/-- All word-bounded maximal digit runs of length 6–8 of a text. -/
def boundedRuns (s : String) : List (List Char) :=
  boundedRunsAux none s.data

/-- Specification wording for C1: the summed confidence weight of one
item-number candidate over a list of frames. -/
def sumWeight (k : String) (frames : List FrameResult) : ℚ :=
  ((frames.filter (fun f => f.extraction.itemNumber = some k)).map
    (fun f => f.extraction.confidence)).sum

/-- Specification wording for C1: the total confidence over all retained
frames. -/
def totalConfidenceOf (frames : List FrameResult) : ℚ :=
  (frames.map (fun f => f.extraction.confidence)).sum

/-- Specification wording for C4: the tolerant discontinuation-marker
class the spec describes — a literal asterisk or OCR-confusable glyph
(bullet U+2022, asterisk operator U+2217, Arabic five-pointed star
U+066D), a stray `*`/`x`/`X`/`+` token bounded by whitespace or the
string ends, or a trailing `sk` fragment (case-insensitive). -/
def strayTokenAux (prevBoundary : Bool) : List Char → Bool
  | [] => false
  | c :: rest =>
    (prevBoundary && (c = '*' || c = 'x' || c = 'X' || c = '+') &&
      (match rest.head? with
       | none => true
       | some d => isJsSpace d)) ||
    strayTokenAux (isJsSpace c) rest

/-- Tolerant asterisk test, as the specification words it. -/
def tolerantAsteriskSpec (s : String) : Bool :=
  s.data.any (fun c => c = '*' || c.val = 8226 || c.val = 8727 || c.val = 1645) ||
  strayTokenAux true s.data ||
  (let l := s.data.map Char.toLower
   decide (2 ≤ l.length) && l.drop (l.length - 2) = ['s', 'k'])

/-! ## Concrete inputs used by the closed theorems -/

/-- A 20×20 edge map: isolated edge pixels at (x, y) ∈
{12, 14, 16, 18} × {4, 6} (flat indices y * 20 + x).  The pixels avoid
every sampled row (y ∈ {0, 5, 10, 15}) and column (x ∈ {0, 5, 10, 15}),
so the line finders see nothing, while grid cells (6..9, 2..3) each hold
one edge pixel (density 1/4 ≥ 0.1). -/
def edges20 (idx : Nat) : Nat :=
  if idx = 92 ∨ idx = 94 ∨ idx = 96 ∨ idx = 98 ∨
     idx = 132 ∨ idx = 134 ∨ idx = 136 ∨ idx = 138 then 255 else 0

/-! ## Theorems -/

set_option maxRecDepth 200000

/-- C9: whenever preprocessing or the recognition call throws, the
extractor returns a zero-confidence `OCRExtraction` with `success = false`,
every structured field null, `hasAsterisk = false` and `error` carrying
the exception's message; the exception never escapes `extractPriceTag`
(which is total). -/
theorem spec_C9_error_extraction (msg : String) :
    extractPriceTag (Except.error msg) =
      { success := false, confidence := 0, itemNumber := none, price := none,
        priceEnding := none, unitPrice := none, unitMeasure := none,
        description := none, hasAsterisk := false, error := some msg } :=
  rfl

/-- C7 (amended): a call with no detected region returns stability 0 and
empties the stability buffer, from any buffer state; the immediately
following call returns 0 again if it also has no detected region, but a
following call with a detected region returns the partial credit
`(1/3)·0.5 = 1/6`, not 0.  Quantified over every interpretation of
`Math.sqrt`. -/
theorem spec_C7_reset_and_partial_credit (sqrtQ : ℚ → ℚ)
    (buf : List TagBounds) (b : TagBounds) :
    calculateStability sqrtQ buf none = (0, []) ∧
    calculateStability sqrtQ [] none = (0, []) ∧
    calculateStability sqrtQ [] (some b) = (1/6, [b]) := by
  refine ⟨rfl, rfl, ?_⟩
  unfold calculateStability
  norm_num

/-- C7 (counterexample): after a no-region call (which resets the
buffer), the immediately following call with a detected region does not
return stability 0 — it returns 1/6. -/
theorem spec_C7_partial_credit_counterexample :
    ¬ ((calculateStability (fun q => q)
        ((calculateStability (fun q => q) [⟨1, 1, 4, 4, 1⟩] none).2)
        (some ⟨0, 0, 10, 10, 1⟩)).1 = 0) := by
  have h : (calculateStability (fun q => q)
      ((calculateStability (fun q => q) [⟨1, 1, 4, 4, 1⟩] none).2)
      (some ⟨0, 0, 10, 10, 1⟩)).1 = 1/6 := by
    with_unfolding_all rfl
  rw [h]
  norm_num

/-- C4 (amended): the asterisk detector of the client extractor is the
literal pattern `/\*/`: the test succeeds exactly when the text contains
a literal asterisk character, and on every non-throwing extraction
`hasAsterisk` is that test of the recognized text. -/
theorem spec_C4_asterisk_literal_only (s : String) :
    (asteriskTest s = true ↔ '*' ∈ s.data) ∧
    ∀ conf e, extractBody s conf = Except.ok e →
      e.hasAsterisk = asteriskTest s := by
  constructor
  · simp [asteriskTest, List.any_eq_true]
  · intro conf e he
    unfold extractBody at he
    rcases hu : extractUnitPrice s with msg | uv
    · rw [hu] at he; cases he
    · rw [hu] at he
      cases he
      rfl

/-- C4 (counterexample): the claim's tolerant character class (bullet and
star-like glyphs, stray `x`/`+` tokens, trailing `sk`) does not describe
the extractor: on the text `" x "` the tolerant class matches but the
extractor's `hasAsterisk` is false. -/
theorem spec_C4_tolerant_class_counterexample :
    ¬ (((extractPriceTag (Except.ok (" x ", 50))).hasAsterisk = true) ↔
        (tolerantAsteriskSpec " x " = true)) := by
  have h1 : (extractPriceTag (Except.ok (" x ", 50))).hasAsterisk = false := by
    with_unfolding_all rfl
  have h2 : tolerantAsteriskSpec " x " = true := by
    with_unfolding_all rfl
  rw [h1, h2]
  simp

/-- C5: the claimed invariant that `tagBounds` always lies within the
frame extent fails in the edge-density fallback: on the 20×20 edge map
`edges20` detection returns the rectangle (x, y, w, h) = (11, 3, 10, 6),
and 11 + 10 = 21 exceeds the frame width 20 (the source clamps `width`
to the frame width but adds it to an `x` already at
`minX·cellW − padding`). -/
theorem spec_C5_fallback_escapes_frame :
    findTagBounds edges20 20 20 = some ⟨11, 3, 10, 6, 2/25⟩ ∧
    ∃ r, findTagBounds edges20 20 20 = some r ∧
      r.x + r.width > 20 ∧ 0 ≤ r.x ∧ 0 ≤ r.y ∧ r.width ≤ 20 ∧
      r.height ≤ 20 := by
  have h : findTagBounds edges20 20 20 = some ⟨11, 3, 10, 6, 2/25⟩ := by
    with_unfolding_all rfl
  exact ⟨h, ⟨11, 3, 10, 6, 2/25⟩, h, by norm_num, by norm_num, by norm_num,
    by norm_num, by norm_num⟩

/-- C6: on a degenerate uniform image the contrast enhancement is not a
no-op: the zero-variance histogram makes `scale = 255/0 = Infinity`, the
remap computes `0 · Infinity = NaN`, and the clamped store turns every
pixel into 0 (here a uniform 2×2 image of value 128 becomes all-zero,
not the unchanged image). -/
theorem spec_C6_uniform_image_blackout :
    enhanceContrast 2 2 [128, 128, 128, 128] = [0, 0, 0, 0] ∧
    enhanceContrast 2 2 [128, 128, 128, 128] ≠ [128, 128, 128, 128] := by
  have h : enhanceContrast 2 2 [128, 128, 128, 128] = [0, 0, 0, 0] := by
    with_unfolding_all rfl
  refine ⟨h, ?_⟩
  rw [h]
  simp

/-! Helper lemmas for the buffer claims. -/

/-- One `addToFrameBuffer` step, written as a drop on the appended list. -/
theorem addToFrameBuffer_eq_drop (buf : List BufferedFrame)
    (f : BufferedFrame) (h : buf.length ≤ 10) :
    addToFrameBuffer buf f = (buf ++ [f]).drop (buf.length + 1 - 10) := by
  unfold addToFrameBuffer
  by_cases h10 : buf.length = 10
  · simp [h10]
  · have : ¬ ((buf ++ [f]).length > 10) := by
      simp only [List.length_append, List.length_singleton]
      omega
    rw [if_neg this]
    have h0 : buf.length + 1 - 10 = 0 := by omega
    rw [h0, List.drop_zero]

/-- Folding the frame buffer from empty keeps exactly the most recent 10
frames, in insertion order. -/
theorem foldl_frameBuffer_eq_drop (fs : List BufferedFrame) :
    fs.foldl addToFrameBuffer [] = fs.drop (fs.length - 10) := by
  induction fs using List.reverseRecOn with
  | nil => rfl
  | append_singleton gs f ih =>
    rw [List.foldl_append, List.foldl_cons, List.foldl_nil, ih]
    have hlen : (gs.drop (gs.length - 10)).length ≤ 10 := by
      rw [List.length_drop]; omega
    rw [addToFrameBuffer_eq_drop _ _ hlen]
    have hle : gs.length - 10 ≤ gs.length := by omega
    rw [← List.drop_append_of_le_length hle, List.drop_drop]
    congr 1
    rw [List.length_drop, List.length_append, List.length_singleton]
    omega

/-- The second component of a `calculateStability` call with detected
bounds is the pushed-and-capped buffer. -/
theorem calculateStability_snd (sqrtQ : ℚ → ℚ) (buf : List TagBounds)
    (tb : TagBounds) :
    (calculateStability sqrtQ buf (some tb)).2 =
      if (buf ++ [tb]).length > 3 then (buf ++ [tb]).drop 1 else buf ++ [tb] := by
  simp only [calculateStability]
  split <;> split <;> rfl

/-- One `calculateStability` step keeps the stability buffer within its
capacity 3. -/
theorem calculateStability_buffer_le (sqrtQ : ℚ → ℚ)
    (buf : List TagBounds) (b : Option TagBounds) (h : buf.length ≤ 3) :
    ((calculateStability sqrtQ buf b).2).length ≤ 3 := by
  cases b with
  | none => simp [calculateStability]
  | some tb =>
    rw [calculateStability_snd]
    split
    · simp only [List.length_drop, List.length_append, List.length_singleton]
      omega
    · rename_i hc
      simp only [List.length_append, List.length_singleton, gt_iff_lt,
        not_lt] at hc ⊢
      omega

/-- Concrete sequence of 11 frames with distinct timestamps. -/
def frames11 : List BufferedFrame :=
  (List.range 11).map (fun i =>
    { imageData := [],
      analysis :=
        { blurScore := 0, isSharp := false, tagDetected := false,
          tagBounds := none, stability := 0, timestamp := (i : ℤ) } })

/-- C8: the stability ring buffer and the frame buffer never exceed their
capacities (3 and 10), the oldest entry is evicted on overflow — after
any insertion sequence the frame buffer holds exactly the most recently
added frames in insertion order — and in particular adding 11 frames to
the empty frame buffer leaves exactly the last 10, in order. -/
theorem spec_C8_buffer_capacity :
    (∀ fs : List BufferedFrame,
      fs.foldl addToFrameBuffer [] = fs.drop (fs.length - 10)) ∧
    (∀ fs : List BufferedFrame, (fs.foldl addToFrameBuffer []).length ≤ 10) ∧
    (∀ (sqrtQ : ℚ → ℚ) (bs : List (Option TagBounds)),
      (bs.foldl (fun buf b => (calculateStability sqrtQ buf b).2) []).length ≤ 3) ∧
    frames11.foldl addToFrameBuffer [] = frames11.drop 1 ∧
    (frames11.foldl addToFrameBuffer []).length = 10 := by
  have hstab : ∀ (sqrtQ : ℚ → ℚ) (bs : List (Option TagBounds))
      (buf : List TagBounds), buf.length ≤ 3 →
      (bs.foldl (fun buf b => (calculateStability sqrtQ buf b).2) buf).length ≤ 3 := by
    intro sqrtQ bs
    induction bs with
    | nil => intro buf h; simpa using h
    | cons b t ih =>
      intro buf h
      exact ih _ (calculateStability_buffer_le sqrtQ buf b h)
  refine ⟨foldl_frameBuffer_eq_drop, ?_, ?_, ?_, ?_⟩
  · intro fs
    rw [foldl_frameBuffer_eq_drop fs, List.length_drop]
    omega
  · intro sqrtQ bs
    exact hstab sqrtQ bs [] (by simp)
  · rw [foldl_frameBuffer_eq_drop frames11]
    rfl
  · rw [foldl_frameBuffer_eq_drop frames11]
    rfl

/-- An unsuccessful extraction leaves the hook state unchanged apart from
`isProcessing`. -/
theorem addFrame_of_failure (now : ℤ) (ex : OCRExtraction)
    (st : MultiFrameState) (h : ex.success = false) :
    addFrame now ex st = (false, { st with isProcessing := false }) := by
  unfold addFrame
  rw [h]
  rfl

/-- On a successful extraction the retained frames are the retention
step's output. -/
theorem addFrame_frames_of_success (now : ℤ) (ex : OCRExtraction)
    (st : MultiFrameState) (h : ex.success = true) :
    (addFrame now ex st).2.frames = addFrameKept now ex st.frames := by
  unfold addFrame
  rw [h]
  rfl

/-- Every retained frame was already retained or is the newly pushed one. -/
theorem addFrameKept_subset (now : ℤ) (ex : OCRExtraction)
    (frames : List FrameResult) (f : FrameResult)
    (hf : f ∈ addFrameKept now ex frames) :
    f ∈ frames ∨ f = { extraction := ex, timestamp := now } := by
  simp only [addFrameKept] at hf
  have hf2 : f ∈ (frames ++ [{ extraction := ex, timestamp := now : FrameResult }]).filter
      (fun fr => decide (now - fr.timestamp < 3000)) := by
    split at hf
    · exact List.mem_of_mem_drop hf
    · exact hf
  have hf3 := List.mem_of_mem_filter hf2
  rcases List.mem_append.mp hf3 with h1 | h2
  · exact Or.inl h1
  · exact Or.inr (by simpa using h2)

/-- C10: unsuccessful extractions are never retained: `addFrame` returns
false and leaves the retained frames, the stored result and the frame
count unchanged; retaining only successful extractions is invariant under
`addFrame`; and the extractor's `success` flag holds exactly when both
the item number and the price are non-null.  Hence the consensus votes
range only over successful extractions. -/
theorem spec_C10_addFrame_success_filter :
    (∀ (now : ℤ) (ex : OCRExtraction) (st : MultiFrameState),
      ex.success = false →
        (addFrame now ex st).1 = false ∧
        (addFrame now ex st).2.frames = st.frames ∧
        (addFrame now ex st).2.result = st.result ∧
        (addFrame now ex st).2.frameCount = st.frameCount) ∧
    (∀ (now : ℤ) (ex : OCRExtraction) (st : MultiFrameState),
      (∀ f ∈ st.frames, f.extraction.success = true) →
      ∀ f ∈ (addFrame now ex st).2.frames, f.extraction.success = true) ∧
    (∀ r : Except String (String × ℚ),
      (extractPriceTag r).success = true ↔
        ((extractPriceTag r).itemNumber ≠ none ∧
         (extractPriceTag r).price ≠ none)) := by
  refine ⟨?_, ?_, ?_⟩
  · intro now ex st h
    rw [addFrame_of_failure now ex st h]
    exact ⟨rfl, rfl, rfl, rfl⟩
  · intro now ex st hall f hf
    cases hs : ex.success with
    | false =>
      rw [addFrame_of_failure now ex st hs] at hf
      exact hall f hf
    | true =>
      rw [addFrame_frames_of_success now ex st hs] at hf
      rcases addFrameKept_subset now ex st.frames f hf with h1 | h2
      · exact hall f h1
      · rw [h2]
        exact hs
  · intro r
    rcases r with msg | tc
    · simp [extractPriceTag]
    · obtain ⟨t, c⟩ := tc
      rcases hb : extractBody t c with msg | e
      · simp [extractPriceTag, hb]
      · have hred : extractPriceTag (Except.ok (t, c)) = e := by
          simp [extractPriceTag, hb]
        rw [hred]
        unfold extractBody at hb
        rcases hu : extractUnitPrice t with m | uv
        · rw [hu] at hb; cases hb
        · rw [hu] at hb
          obtain ⟨up, um⟩ := uv
          cases hb
          simp [Option.isSome_iff_ne_none]

/-- The `reduce` of `extractPrice` returns an element of the match list
whose dollar amount is maximal (the first such, since the comparison is
strict). -/
theorem foldl_max_dollars (l : List (List Char × List Char))
    (init : List Char × List Char) :
    (l.foldl (fun b cur => if priceDollars b < priceDollars cur then cur else b)
        init) ∈ init :: l ∧
    ∀ x ∈ init :: l, priceDollars x ≤
      priceDollars (l.foldl
        (fun b cur => if priceDollars b < priceDollars cur then cur else b) init) := by
  induction l generalizing init with
  | nil =>
    refine ⟨List.mem_singleton_self init, ?_⟩
    intro x hx
    rw [List.mem_singleton.mp hx]
    simp [List.foldl_nil]
  | cons a t ih =>
    simp only [List.foldl_cons]
    obtain ⟨ihmem, ihle⟩ := ih (if priceDollars init < priceDollars a then a else init)
    constructor
    · rcases List.mem_cons.mp ihmem with h | h
      · rw [h]
        split
        · exact List.mem_cons_of_mem _ (List.mem_cons_self _ _)
        · exact List.mem_cons_self _ _
      · exact List.mem_cons_of_mem _ (List.mem_cons_of_mem _ h)
    · intro x hx
      rcases List.mem_cons.mp hx with h | h
      · rw [h]
        refine le_trans ?_ (ihle _ (List.mem_cons_self _ _))
        split
        · exact le_of_lt (by assumption)
        · exact le_refl _
      · rcases List.mem_cons.mp h with h2 | h2
        · rw [h2]
          refine le_trans ?_ (ihle _ (List.mem_cons_self _ _))
          split
          · exact le_refl _
          · exact le_of_not_lt (by assumption)
        · exact ihle x (List.mem_cons_of_mem _ h2)

/-- C2: on any text, when the price pattern has at least one match,
`extractPrice` returns a match with the largest integer dollar amount,
with `price = dollars.cents` and `priceEnding = "." ++ cents`; when there
is no match both results are null; and on
`"REG $12.99 SPECIAL $9.97"` it returns price 12.99 with ending ".99". -/
theorem spec_C2_extract_price_largest_dollar :
    (∀ s : String,
      (priceMatches s = [] → extractPrice s = (none, none)) ∧
      (priceMatches s ≠ [] →
        ∃ b ∈ priceMatches s,
          (∀ x ∈ priceMatches s, priceDollars x ≤ priceDollars b) ∧
          extractPrice s =
            (some (priceValue b), some (String.mk ('.' :: b.2))))) ∧
    extractPrice "REG $12.99 SPECIAL $9.97" = (some (1299/100), some ".99") := by
  constructor
  · intro s
    constructor
    · intro h
      unfold extractPrice
      rw [h]
    · intro hne
      rcases hm : priceMatches s with _ | ⟨m, ms⟩
      · exact absurd hm hne
      · unfold extractPrice
        rw [hm]
        obtain ⟨hmem, hle⟩ := foldl_max_dollars ms m
        exact ⟨_, hmem, hle, rfl⟩
  · with_unfolding_all rfl

/-- Witness for C2 at the text `"REG $12.99 SPECIAL $9.97"`. -/
theorem spec_C2_extract_price_largest_dollar_witness :
    priceMatches "REG $12.99 SPECIAL $9.97" ≠ [] ∧
    ∃ b ∈ priceMatches "REG $12.99 SPECIAL $9.97",
      (∀ x ∈ priceMatches "REG $12.99 SPECIAL $9.97",
        priceDollars x ≤ priceDollars b) ∧
      extractPrice "REG $12.99 SPECIAL $9.97" =
        (some (priceValue b), some (String.mk ('.' :: b.2))) := by
  have hne : priceMatches "REG $12.99 SPECIAL $9.97" ≠ [] := by decide
  exact ⟨hne,
    (spec_C2_extract_price_largest_dollar.1 "REG $12.99 SPECIAL $9.97").2 hne⟩

/-- A failed extraction record (as produced for a recognition error). -/
def badExtraction : OCRExtraction :=
  { success := false, confidence := 0, itemNumber := none, price := none,
    priceEnding := none, unitPrice := none, unitMeasure := none,
    description := none, hasAsterisk := false, error := some "OCR failed" }

/-- A successful extraction record. -/
def goodExtraction : OCRExtraction :=
  { success := true, confidence := 9/10, itemNumber := some "1234567",
    price := some (1299/100), priceEnding := some ".99", unitPrice := none,
    unitMeasure := none, description := none, hasAsterisk := false,
    error := none }

/-- A hook state holding one successful frame. -/
def stateC10 : MultiFrameState :=
  { frames := [{ extraction := goodExtraction, timestamp := 5 }],
    result := none, frameCount := 1, hasResult := false,
    isProcessing := false }

/-- Witness for C10 at concrete inputs. -/
theorem spec_C10_addFrame_success_filter_witness :
    ((addFrame 10 badExtraction stateC10).1 = false ∧
     (addFrame 10 badExtraction stateC10).2.frames = stateC10.frames ∧
     (addFrame 10 badExtraction stateC10).2.result = stateC10.result ∧
     (addFrame 10 badExtraction stateC10).2.frameCount = stateC10.frameCount) ∧
    (∀ f ∈ (addFrame 10 goodExtraction stateC10).2.frames,
      f.extraction.success = true) ∧
    ((extractPriceTag (Except.error "boom")).success = true ↔
      ((extractPriceTag (Except.error "boom")).itemNumber ≠ none ∧
       (extractPriceTag (Except.error "boom")).price ≠ none)) := by
  refine ⟨spec_C10_addFrame_success_filter.1 10 badExtraction stateC10 rfl,
    spec_C10_addFrame_success_filter.2.1 10 goodExtraction stateC10 ?_,
    spec_C10_addFrame_success_filter.2.2 (Except.error "boom")⟩
  intro f hf
  have : f = { extraction := goodExtraction, timestamp := 5 } := by
    simpa [stateC10] using hf
  rw [this]
  rfl

/-- The head of `dropWhile p` does not satisfy `p`. -/
theorem head_dropWhile_not (p : Char → Bool) :
    ∀ (l : List Char) (c : Char), (l.dropWhile p).head? = some c → p c = false := by
  intro l
  induction l with
  | nil => intro c h; cases h
  | cons a t ih =>
    intro c h
    by_cases hp : p a
    · rw [List.dropWhile_cons_of_pos hp] at h
      exact ih c h
    · rw [List.dropWhile_cons_of_neg hp] at h
      cases h
      exact Bool.eq_false_iff.mpr hp

/-- The first `(takeWhile p l).length` elements of `l` are the takeWhile
prefix itself. -/
theorem take_length_takeWhile (p : Char → Bool) (l : List Char) :
    l.take (l.takeWhile p).length = l.takeWhile p := by
  have h := List.take_left (l.takeWhile p) (l.dropWhile p)
  rw [List.takeWhile_append_dropWhile] at h
  exact h

/-- Dropping the takeWhile prefix is dropWhile. -/
theorem drop_length_takeWhile (p : Char → Bool) (l : List Char) :
    l.drop (l.takeWhile p).length = l.dropWhile p := by
  have h := List.drop_left (l.takeWhile p) (l.dropWhile p)
  rw [List.takeWhile_append_dropWhile] at h
  exact h

/-- The takeWhile prefix is never longer than the list. -/
theorem length_takeWhile_le_len (p : Char → Bool) (l : List Char) :
    (l.takeWhile p).length ≤ l.length := by
  conv_rhs => rw [← List.takeWhile_append_dropWhile p l]
  rw [List.length_append]
  omega

/-- Characterization of one `\d{k}\b` attempt: it succeeds exactly when
`k` is the length of the maximal digit prefix and the character after
that prefix (if any) is not a word character. -/
theorem itemTryLen_iff (s : List Char) (k : Nat) :
    itemTryLen s k = true ↔
      (k = (s.takeWhile Char.isDigit).length ∧
       isWordOpt ((s.dropWhile Char.isDigit).head?) = false) := by
  unfold itemTryLen
  simp only [Bool.and_eq_true, decide_eq_true_eq, Bool.not_eq_true',
    List.all_eq_true]
  constructor
  · rintro ⟨⟨hlen, hall⟩, hright⟩
    have hkle : k ≤ s.length := by
      rw [List.length_take] at hlen
      omega
    have hTle : (s.takeWhile Char.isDigit).length ≤ s.length :=
      length_takeWhile_le_len _ _
    rcases Nat.lt_trichotomy k (s.takeWhile Char.isDigit).length with hlt | heq | hgt
    · -- k < prefix length: the character after the taken digits is a digit
      exfalso
      have hdrop : s.drop k =
          (s.takeWhile Char.isDigit).drop k ++ s.dropWhile Char.isDigit := by
        conv_lhs => rw [← List.takeWhile_append_dropWhile Char.isDigit s]
        exact List.drop_append_of_le_length (le_of_lt hlt)
      have hne : (s.takeWhile Char.isDigit).drop k ≠ [] := by
        intro h0
        have := congrArg List.length h0
        rw [List.length_drop] at this
        simp at this
        omega
      obtain ⟨d, ds, hds⟩ := List.exists_cons_of_ne_nil hne
      rw [hdrop, hds] at hright
      simp only [List.cons_append, List.head?_cons, isWordOpt] at hright
      have hd : d ∈ s.takeWhile Char.isDigit := by
        have : d ∈ (s.takeWhile Char.isDigit).drop k := by
          rw [hds]; exact List.mem_cons_self _ _
        exact List.mem_of_mem_drop this
      have := List.mem_takeWhile_imp hd
      simp [isWordChar, this] at hright
    · exact ⟨heq, by rwa [← drop_length_takeWhile, ← heq]⟩
    · -- k > prefix length: a non-digit would be among the taken characters
      exfalso
      have hDne : s.dropWhile Char.isDigit ≠ [] := by
        intro h0
        have := congrArg List.length
          (List.takeWhile_append_dropWhile Char.isDigit s)
        rw [List.length_append, h0] at this
        simp at this
        omega
      obtain ⟨d, ds, hds⟩ := List.exists_cons_of_ne_nil hDne
      have hdnotdigit : Char.isDigit d = false := by
        apply head_dropWhile_not Char.isDigit s
        rw [hds]; rfl
      have htake : s.take k = s.takeWhile Char.isDigit ++
          (s.dropWhile Char.isDigit).take (k - (s.takeWhile Char.isDigit).length) := by
        conv_lhs => rw [← List.takeWhile_append_dropWhile Char.isDigit s]
        rw [List.take_append_eq_append_take]
        congr 1
        exact List.take_of_length_le (le_of_lt hgt)
      have hdmem : d ∈ s.take k := by
        rw [htake, hds]
        refine List.mem_append_right _ ?_
        have : 0 < k - (s.takeWhile Char.isDigit).length := by omega
        cases hkk : k - (s.takeWhile Char.isDigit).length with
        | zero => omega
        | succ n => simp [List.take_cons]
      have := hall d hdmem
      rw [hdnotdigit] at this
      cases this
  · rintro ⟨hk, hright⟩
    subst hk
    refine ⟨⟨?_, ?_⟩, ?_⟩
    · rw [List.length_take]
      have := length_takeWhile_le_len Char.isDigit s
      omega
    · intro x hx
      rw [take_length_takeWhile] at hx
      exact List.mem_takeWhile_imp hx
    · rwa [drop_length_takeWhile]

/-- Characterization of one full `/\b(\d{6,8})\b/` attempt at a position:
it matches exactly the maximal digit prefix, provided the position starts
a word-bounded digit run of length 6 to 8. -/
theorem itemTry_eq (prev : Option Char) (c : Char) (rest : List Char) :
    itemTry prev (c :: rest) =
      (if c.isDigit && !isWordOpt prev &&
          decide (6 ≤ ((c :: rest).takeWhile Char.isDigit).length) &&
          decide (((c :: rest).takeWhile Char.isDigit).length ≤ 8) &&
          !isWordOpt (((c :: rest).dropWhile Char.isDigit).head?)
        then some ((c :: rest).takeWhile Char.isDigit).length else none) := by
  by_cases hd : c.isDigit = true
  · have hw : isWordChar c = true := by simp [isWordChar, hd]
    have hbound : jsBoundary prev ((c :: rest).head?) = !isWordOpt prev := by
      unfold jsBoundary
      rw [List.head?_cons]
      have hc : isWordOpt (some c) = true := by simp [isWordOpt, hw]
      rw [hc]
      cases h : isWordOpt prev <;> rfl
    by_cases hp : isWordOpt prev = true
    · unfold itemTry
      rw [hbound, hp, hd]
      rfl
    · have hp' : isWordOpt prev = false := by
        cases h : isWordOpt prev
        · rfl
        · exact absurd h hp
      by_cases hr : isWordOpt (((c :: rest).dropWhile Char.isDigit).head?) = false
      · have h8 := itemTryLen_iff (c :: rest) 8
        have h7 := itemTryLen_iff (c :: rest) 7
        have h6 := itemTryLen_iff (c :: rest) 6
        unfold itemTry
        rw [hbound, hp']
        by_cases e8 : ((c :: rest).takeWhile Char.isDigit).length = 8
        · have ht : itemTryLen (c :: rest) 8 = true := h8.mpr ⟨e8.symm, hr⟩
          rw [ht, e8, hd, hr]
          rfl
        · have n8 : itemTryLen (c :: rest) 8 = false := by
            rw [Bool.eq_false_iff]
            intro h
            exact e8 ((h8.mp h).1.symm)
          by_cases e7 : ((c :: rest).takeWhile Char.isDigit).length = 7
          · have ht : itemTryLen (c :: rest) 7 = true := h7.mpr ⟨e7.symm, hr⟩
            rw [n8, ht, e7, hd, hr]
            rfl
          · have n7 : itemTryLen (c :: rest) 7 = false := by
              rw [Bool.eq_false_iff]
              intro h
              exact e7 ((h7.mp h).1.symm)
            by_cases e6 : ((c :: rest).takeWhile Char.isDigit).length = 6
            · have ht : itemTryLen (c :: rest) 6 = true := h6.mpr ⟨e6.symm, hr⟩
              rw [n8, n7, ht, e6, hd, hr]
              rfl
            · have n6 : itemTryLen (c :: rest) 6 = false := by
                rw [Bool.eq_false_iff]
                intro h
                exact e6 ((h6.mp h).1.symm)
              rw [n8, n7, n6, hd, hr]
              have hns : ¬ (6 ≤ ((c :: rest).takeWhile Char.isDigit).length ∧
                  ((c :: rest).takeWhile Char.isDigit).length ≤ 8) := by
                rintro ⟨hl, hu⟩
                rcases Nat.lt_or_ge ((c :: rest).takeWhile Char.isDigit).length 7 with h | h
                · exact e6 (by omega)
                · rcases Nat.lt_or_ge ((c :: rest).takeWhile Char.isDigit).length 8 with h2 | h2
                  · exact e7 (by omega)
                  · exact e8 (by omega)
              simp only [Bool.false_eq_true, if_false, Bool.true_and,
                Bool.not_false, Bool.and_true, Bool.and_eq_true,
                decide_eq_true_eq]
              rw [if_neg hns]
              simp
      · have hr' : isWordOpt (((c :: rest).dropWhile Char.isDigit).head?) = true := by
          cases h : isWordOpt (((c :: rest).dropWhile Char.isDigit).head?)
          · exact absurd h hr
          · rfl
        have hno : ∀ k, itemTryLen (c :: rest) k = false := by
          intro k
          rw [Bool.eq_false_iff]
          intro h
          have := (itemTryLen_iff _ k).mp h
          rw [this.2] at hr'
          cases hr'
        unfold itemTry
        rw [hbound, hp', hno 8, hno 7, hno 6, hr', hd]
        simp
  · have hd' : c.isDigit = false := by
      cases h : c.isDigit
      · rfl
      · exact absurd h hd
    have hL : ((c :: rest).takeWhile Char.isDigit).length = 0 := by
      rw [List.takeWhile_cons_of_neg (by simp [hd'])]
      rfl
    have hno : ∀ k, 1 ≤ k → itemTryLen (c :: rest) k = false := by
      intro k hk
      rw [Bool.eq_false_iff]
      intro h
      have := (itemTryLen_iff _ k).mp h
      omega
    unfold itemTry
    rw [hno 8 (by omega), hno 7 (by omega), hno 6 (by omega), hd']
    cases hb : jsBoundary prev ((c :: rest).head?) <;> rfl

/-- All elements of the take of a takeWhile prefix are digits. -/
theorem take_takeWhile_all_digit (l : List Char) :
    (l.take (l.takeWhile Char.isDigit).length).all Char.isDigit = true := by
  rw [take_length_takeWhile]
  exact List.all_eq_true.mpr (fun x hx => List.mem_takeWhile_imp hx)

/-- Main equivalence: the exec loop of `ITEM_NUMBER_PATTERN` produces
exactly the word-bounded maximal digit runs of length 6–8.  The first
component handles a fresh scan position (`skip = 0`); the second handles
positions inside an already-consumed match, where the preceding
character is a word character and the next `j` characters are digits. -/
theorem itemExec_runs_aux : ∀ (n : Nat) (s : List Char), s.length ≤ n →
    (∀ prev, itemExecAux prev 0 s = boundedRunsAux prev s) ∧
    (∀ j prev, (s.take j).all Char.isDigit = true → isWordOpt prev = true →
      itemExecAux prev j s = boundedRunsAux prev s) := by
  intro n
  induction n with
  | zero =>
    intro s hs
    have hnil : s = [] := List.length_eq_zero.mp (Nat.le_zero.mp hs)
    subst hnil
    refine ⟨fun prev => rfl, fun j prev _ _ => ?_⟩
    cases j <;> rfl
  | succ n ih =>
    intro s hs
    have hP : ∀ prev, itemExecAux prev 0 s = boundedRunsAux prev s := by
      intro prev
      cases s with
      | nil => rfl
      | cons c rest =>
        have hrest : rest.length ≤ n := by
          simp only [List.length_cons] at hs
          omega
        show (match itemTry prev (c :: rest) with
          | some k => (c :: rest).take k :: itemExecAux (some c) (k - 1) rest
          | none => itemExecAux (some c) 0 rest) = boundedRunsAux prev (c :: rest)
        rw [itemTry_eq]
        by_cases hcond : (c.isDigit && !isWordOpt prev &&
            decide (6 ≤ ((c :: rest).takeWhile Char.isDigit).length) &&
            decide (((c :: rest).takeWhile Char.isDigit).length ≤ 8) &&
            !isWordOpt (((c :: rest).dropWhile Char.isDigit).head?)) = true
        · rw [if_pos hcond]
          have hd : c.isDigit = true := by
            simp only [Bool.and_eq_true] at hcond
            exact hcond.1.1.1.1
          have hTcons : (c :: rest).takeWhile Char.isDigit =
              c :: rest.takeWhile Char.isDigit :=
            List.takeWhile_cons_of_pos hd
          have hL1 : ((c :: rest).takeWhile Char.isDigit).length =
              (rest.takeWhile Char.isDigit).length + 1 := by
            rw [hTcons]
            rfl
          have hskip : itemExecAux (some c)
              (((c :: rest).takeWhile Char.isDigit).length - 1) rest =
              boundedRunsAux (some c) rest := by
            apply (ih rest hrest).2
            · rw [hL1]
              simpa using take_takeWhile_all_digit rest
            · simp [isWordOpt, isWordChar, hd]
          show (c :: rest).take ((c :: rest).takeWhile Char.isDigit).length ::
              itemExecAux (some c)
                (((c :: rest).takeWhile Char.isDigit).length - 1) rest =
              boundedRunsAux prev (c :: rest)
          rw [hskip, take_length_takeWhile]
          show _ = (if _ then [(c :: rest).takeWhile Char.isDigit] else []) ++
            boundedRunsAux (some c) rest
          rw [if_pos hcond]
          rfl
        · rw [if_neg hcond]
          have hrec := (ih rest hrest).1 (some c)
          rw [hrec]
          show _ = (if _ then [(c :: rest).takeWhile Char.isDigit] else []) ++
            boundedRunsAux (some c) rest
          rw [if_neg hcond]
          rfl
    have hSL : ∀ j prev, (s.take j).all Char.isDigit = true →
        isWordOpt prev = true → itemExecAux prev j s = boundedRunsAux prev s := by
      intro j prev htake hword
      cases s with
      | nil => cases j <;> rfl
      | cons c rest =>
        cases j with
        | zero => exact hP prev
        | succ j' =>
          have hrest : rest.length ≤ n := by
            simp only [List.length_cons] at hs
            omega
          have hc : c.isDigit = true := by
            rw [List.take_succ_cons] at htake
            simp only [List.all_cons, Bool.and_eq_true] at htake
            exact htake.1
          have htake' : (rest.take j').all Char.isDigit = true := by
            rw [List.take_succ_cons] at htake
            simp only [List.all_cons, Bool.and_eq_true] at htake
            exact htake.2
          show itemExecAux (some c) j' rest = boundedRunsAux prev (c :: rest)
          have hrec := (ih rest hrest).2 j' (some c) htake'
            (by simp [isWordOpt, isWordChar, hc])
          rw [hrec]
          show _ = (if _ then [(c :: rest).takeWhile Char.isDigit] else []) ++
            boundedRunsAux (some c) rest
          have hcondf : (c.isDigit && !isWordOpt prev &&
              decide (6 ≤ ((c :: rest).takeWhile Char.isDigit).length) &&
              decide (((c :: rest).takeWhile Char.isDigit).length ≤ 8) &&
              !isWordOpt (((c :: rest).dropWhile Char.isDigit).head?)) = false := by
            rw [hword]
            simp
          rw [hcondf]
          rfl
    exact ⟨hP, hSL⟩

/-- Every collected word-bounded run has length at least 6. -/
theorem boundedRuns_len_ge (s : List Char) :
    ∀ (prev : Option Char) (m : List Char),
      m ∈ boundedRunsAux prev s → 6 ≤ m.length := by
  induction s with
  | nil => intro prev m h; cases h
  | cons c rest ih =>
    intro prev m h
    simp only [boundedRunsAux] at h
    rcases List.mem_append.mp h with h1 | h2
    · split at h1
      · rename_i hcond
        simp only [Bool.and_eq_true, decide_eq_true_eq] at hcond
        have hm : m = (c :: rest).takeWhile Char.isDigit := by
          simpa using h1
        rw [hm]
        exact hcond.1.1.2
      · cases h1
    · exact ih (some c) m h2

/-- C3: the item-number extractor collects exactly the word-bounded
maximal digit runs of length 6–8, returns the first run of length 7 when
one exists, otherwise the first collected run, otherwise null; and on
`"1234567 99887766"` it returns `"1234567"`. -/
theorem spec_C3_item_number_runs :
    (∀ s : String,
      itemMatches s = boundedRuns s ∧
      extractItemNumber s =
        (match (boundedRuns s).find? (fun m => m.length = 7) with
         | some m => some (String.mk m)
         | none => (boundedRuns s).head?.map String.mk)) ∧
    extractItemNumber "1234567 99887766" = some "1234567" := by
  constructor
  · intro s
    have hEq : itemMatches s = boundedRuns s :=
      (itemExec_runs_aux s.data.length s.data (le_refl _)).1 none
    refine ⟨hEq, ?_⟩
    have hbody : extractItemNumber s =
        (match (boundedRuns s).find? (fun m => m.length = 7) with
         | some m => some (String.mk m)
         | none =>
           match (boundedRuns s).head? with
           | some m => if m.isEmpty then none else some (String.mk m)
           | none => none) := by
      simp only [extractItemNumber, hEq]
    rw [hbody]
    cases h7 : (boundedRuns s).find? (fun m => m.length = 7) with
    | some m => rfl
    | none =>
      cases hh : (boundedRuns s).head? with
      | none => rfl
      | some m =>
        have hmem : m ∈ boundedRuns s := List.mem_of_mem_head? (by simp [hh])
        have hlen : 6 ≤ m.length := boundedRuns_len_ge s.data none m hmem
        have hne : m.isEmpty = false := by
          cases m with
          | nil => simp at hlen
          | cons a t => rfl
        simp only [hne, Bool.false_eq_true, if_false, Option.map_some]
        rfl
  · with_unfolding_all rfl

/-! Helper machinery for the consensus vote (C1). -/

/-- Weight stored in the vote map for a key (`Map.get(k) || 0`). -/
def lookupWeight : List (String × ℚ) → String → ℚ
  | [], _ => 0
  | p :: t, k => if p.1 = k then p.2 else lookupWeight t k

theorem assocAdd_lookup_self (acc : List (String × ℚ)) (k : String) (c : ℚ) :
    lookupWeight (assocAdd acc k c) k = lookupWeight acc k + c := by
  induction acc with
  | nil => simp [assocAdd, lookupWeight]
  | cons p t ih =>
    by_cases hp : p.1 = k
    · simp [assocAdd, lookupWeight, hp]
    · simp [assocAdd, lookupWeight, hp, ih]

theorem assocAdd_lookup_other (acc : List (String × ℚ)) (k k' : String)
    (c : ℚ) (hne : k' ≠ k) :
    lookupWeight (assocAdd acc k c) k' = lookupWeight acc k' := by
  have hkk : ¬ (k = k') := fun h => hne h.symm
  induction acc with
  | nil =>
    simp only [assocAdd, lookupWeight, if_neg hkk]
  | cons p t ih =>
    by_cases hp : p.1 = k
    · have hp' : ¬ p.1 = k' := fun h => hkk (hp.symm.trans h)
      simp only [assocAdd, if_pos hp, lookupWeight, hp, if_neg hkk, if_neg hp']
    · by_cases hp' : p.1 = k'
      · simp only [assocAdd, if_neg hp, lookupWeight, if_pos hp']
      · simp only [assocAdd, if_neg hp, lookupWeight, if_neg hp', ih]

theorem assocAdd_keys_iff (acc : List (String × ℚ)) (k k' : String) (c : ℚ) :
    k' ∈ (assocAdd acc k c).map Prod.fst ↔
      k' ∈ acc.map Prod.fst ∨ k' = k := by
  induction acc with
  | nil => simp [assocAdd]
  | cons p t ih =>
    by_cases hp : p.1 = k
    · simp only [assocAdd, if_pos hp, List.map_cons, List.mem_cons]
      constructor
      · rintro (h | h)
        · exact Or.inl (Or.inl h)
        · exact Or.inl (Or.inr h)
      · rintro ((h | h) | h)
        · exact Or.inl h
        · exact Or.inr h
        · exact Or.inl (hp ▸ h)
    · simp only [assocAdd, if_neg hp, List.map_cons, List.mem_cons, ih]
      tauto

theorem assocAdd_keys_nodup (acc : List (String × ℚ)) (k : String) (c : ℚ)
    (h : (acc.map Prod.fst).Nodup) :
    ((assocAdd acc k c).map Prod.fst).Nodup := by
  induction acc with
  | nil => simp [assocAdd]
  | cons p t ih =>
    rw [List.map_cons, List.nodup_cons] at h
    by_cases hp : p.1 = k
    · simpa [assocAdd, hp, List.nodup_cons] using h
    · rw [assocAdd, if_neg hp, List.map_cons, List.nodup_cons]
      refine ⟨?_, ih h.2⟩
      rw [assocAdd_keys_iff]
      rintro (hmem | hmem)
      · exact h.1 hmem
      · exact hp hmem

theorem lookupWeight_of_mem (acc : List (String × ℚ))
    (hnd : (acc.map Prod.fst).Nodup) (p : String × ℚ) (hp : p ∈ acc) :
    lookupWeight acc p.1 = p.2 := by
  induction acc with
  | nil => cases hp
  | cons q t ih =>
    rw [List.map_cons, List.nodup_cons] at hnd
    rcases List.mem_cons.mp hp with h1 | h1
    · rw [h1]
      simp [lookupWeight]
    · have hq : ¬ q.1 = p.1 := by
        intro h
        exact hnd.1 (h ▸ List.mem_map_of_mem Prod.fst h1)
      simp only [lookupWeight, if_neg hq]
      exact ih hnd.2 h1

theorem sumWeight_cons (k : String) (f : FrameResult) (fs : List FrameResult) :
    sumWeight k (f :: fs) =
      (if f.extraction.itemNumber = some k then f.extraction.confidence else 0) +
        sumWeight k fs := by
  unfold sumWeight
  by_cases h : f.extraction.itemNumber = some k
  · rw [List.filter_cons_of_pos (by simpa using h)]
    simp [h]
  · rw [List.filter_cons_of_neg (by simpa using h)]
    simp [h]

/-- Invariants of the item-number vote fold: keys stay nodup, looked-up
weights accumulate the summed confidences, and every key (and only keys)
of processed frames appear. -/
theorem itemVotes_fold (frames : List FrameResult)
    (hne : ∀ f ∈ frames, f.extraction.itemNumber ≠ some "") :
    ∀ acc : List (String × ℚ), (acc.map Prod.fst).Nodup →
      (((frames.foldl
          (fun acc f =>
            match f.extraction.itemNumber with
            | none => acc
            | some k =>
              if k = "" then acc else assocAdd acc k f.extraction.confidence)
          acc).map Prod.fst).Nodup ∧
      (∀ k, lookupWeight (frames.foldl
          (fun acc f =>
            match f.extraction.itemNumber with
            | none => acc
            | some k =>
              if k = "" then acc else assocAdd acc k f.extraction.confidence)
          acc) k = lookupWeight acc k + sumWeight k frames) ∧
      (∀ k', k' ∈ ((frames.foldl
          (fun acc f =>
            match f.extraction.itemNumber with
            | none => acc
            | some k =>
              if k = "" then acc else assocAdd acc k f.extraction.confidence)
          acc).map Prod.fst) ↔
        (k' ∈ acc.map Prod.fst ∨
          ∃ f ∈ frames, f.extraction.itemNumber = some k'))) := by
  induction frames with
  | nil =>
    intro acc hnd
    refine ⟨hnd, ?_, ?_⟩
    · intro k
      simp [sumWeight]
    · intro k'
      simp
  | cons f fs ih =>
    intro acc hnd
    have hne' : ∀ g ∈ fs, g.extraction.itemNumber ≠ some "" := by
      intro g hg
      exact hne g (List.mem_cons_of_mem _ hg)
    cases hitem : f.extraction.itemNumber with
    | none =>
      simp only [List.foldl_cons, hitem]
      obtain ⟨h1, h2, h3⟩ := ih hne' acc hnd
      refine ⟨h1, ?_, ?_⟩
      · intro k
        rw [h2 k, sumWeight_cons, hitem]
        simp
      · intro k'
        rw [h3 k']
        constructor
        · rintro (h | ⟨g, hg, hgk⟩)
          · exact Or.inl h
          · exact Or.inr ⟨g, List.mem_cons_of_mem _ hg, hgk⟩
        · rintro (h | ⟨g, hg, hgk⟩)
          · exact Or.inl h
          · rcases List.mem_cons.mp hg with h1' | h1'
            · rw [h1'] at hgk
              rw [hitem] at hgk
              cases hgk
            · exact Or.inr ⟨g, h1', hgk⟩
    | some kf =>
      have hkf : kf ≠ "" := by
        intro h0
        exact hne f (List.mem_cons_self _ _) (h0 ▸ hitem)
      simp only [List.foldl_cons, hitem, if_neg hkf]
      obtain ⟨h1, h2, h3⟩ := ih hne'
        (assocAdd acc kf f.extraction.confidence)
        (assocAdd_keys_nodup acc kf _ hnd)
      refine ⟨h1, ?_, ?_⟩
      · intro k
        rw [h2 k, sumWeight_cons, hitem]
        by_cases hk : k = kf
        · rw [hk, assocAdd_lookup_self]
          rw [if_pos rfl]
          ring
        · rw [assocAdd_lookup_other _ _ _ _ hk]
          rw [if_neg (show ¬ (some kf = some k) by
            simp only [Option.some_inj]
            exact fun h => hk h.symm)]
          ring
      · intro k'
        rw [h3 k', assocAdd_keys_iff]
        constructor
        · rintro ((h | h) | ⟨g, hg, hgk⟩)
          · exact Or.inl h
          · exact Or.inr ⟨f, List.mem_cons_self _ _, h ▸ hitem⟩
          · exact Or.inr ⟨g, List.mem_cons_of_mem _ hg, hgk⟩
        · rintro (h | ⟨g, hg, hgk⟩)
          · exact Or.inl (Or.inl h)
          · rcases List.mem_cons.mp hg with h1' | h1'
            · rw [h1', hitem] at hgk
              exact Or.inl (Or.inr (by injection hgk with h2'; exact h2'.symm))
            · exact Or.inr ⟨g, h1', hgk⟩

/-- Summary of the vote-map construction: nodup keys, weights are the
summed confidences, keys are exactly the item numbers of the frames. -/
theorem itemVotes_spec (frames : List FrameResult)
    (hne : ∀ f ∈ frames, f.extraction.itemNumber ≠ some "") :
    ((itemVotes frames).map Prod.fst).Nodup ∧
    (∀ k, lookupWeight (itemVotes frames) k = sumWeight k frames) ∧
    (∀ k', k' ∈ (itemVotes frames).map Prod.fst ↔
      ∃ f ∈ frames, f.extraction.itemNumber = some k') := by
  obtain ⟨h1, h2, h3⟩ := itemVotes_fold frames hne [] (by simp)
  refine ⟨h1, ?_, ?_⟩
  · intro k
    have := h2 k
    simpa [lookupWeight] using this
  · intro k'
    have := h3 k'
    simpa using this

/-- The `forEach` selection loop: the final score dominates the initial
one and every listed weight, and the final state is either the initial
state or one of the listed entries. -/
theorem pickBest_fold (l : List (String × ℚ)) :
    ∀ (b : Option String) (w : ℚ),
      w ≤ (l.foldl (fun st kv => if kv.2 > st.2 then (some kv.1, kv.2) else st)
        (b, w)).2 ∧
      (∀ kv ∈ l, kv.2 ≤ (l.foldl
        (fun st kv => if kv.2 > st.2 then (some kv.1, kv.2) else st) (b, w)).2) ∧
      ((l.foldl (fun st kv => if kv.2 > st.2 then (some kv.1, kv.2) else st)
          (b, w)) = (b, w) ∨
        ∃ kv ∈ l, (l.foldl
          (fun st kv => if kv.2 > st.2 then (some kv.1, kv.2) else st) (b, w)) =
          (some kv.1, kv.2)) := by
  induction l with
  | nil =>
    intro b w
    exact ⟨le_refl _, fun kv hkv => absurd hkv (List.not_mem_nil kv),
      Or.inl rfl⟩
  | cons a t ih =>
    intro b w
    simp only [List.foldl_cons]
    by_cases ha : a.2 > w
    · rw [if_pos ha]
      obtain ⟨ih1, ih2, ih3⟩ := ih (some a.1) a.2
      refine ⟨le_trans (le_of_lt ha) ih1, ?_, ?_⟩
      · intro kv hkv
        rcases List.mem_cons.mp hkv with h | h
        · exact h ▸ ih1
        · exact ih2 kv h
      · rcases ih3 with h | ⟨kv, hkv, h⟩
        · exact Or.inr ⟨a, List.mem_cons_self _ _, h⟩
        · exact Or.inr ⟨kv, List.mem_cons_of_mem _ hkv, h⟩
    · rw [if_neg ha]
      obtain ⟨ih1, ih2, ih3⟩ := ih b w
      refine ⟨ih1, ?_, ?_⟩
      · intro kv hkv
        rcases List.mem_cons.mp hkv with h | h
        · rw [h]
          exact le_trans (le_of_not_lt ha) ih1
        · exact ih2 kv h
      · rcases ih3 with h | ⟨kv, hkv, h⟩
        · exact Or.inl h
        · exact Or.inr ⟨kv, List.mem_cons_of_mem _ hkv, h⟩

/-- A list of nonnegative rationals with positive sum has a positive
element. -/
theorem exists_pos_of_sum_pos (l : List ℚ) (h : 0 < l.sum) :
    ∃ x ∈ l, 0 < x := by
  induction l with
  | nil => simp at h
  | cons a t ih =>
    by_cases ha : 0 < a
    · exact ⟨a, List.mem_cons_self _ _, ha⟩
    · rw [List.sum_cons] at h
      have : 0 < t.sum := by
        push_neg at ha
        linarith
      obtain ⟨x, hx, hxpos⟩ := ih this
      exact ⟨x, List.mem_cons_of_mem _ hx, hxpos⟩

/-- Each contributing frame's confidence bounds its candidate's summed
weight from below (given nonnegative confidences). -/
theorem confidence_le_sumWeight (frames : List FrameResult)
    (hconf : ∀ f ∈ frames, 0 ≤ f.extraction.confidence)
    (f : FrameResult) (hf : f ∈ frames) (k : String)
    (hk : f.extraction.itemNumber = some k) :
    f.extraction.confidence ≤ sumWeight k frames := by
  unfold sumWeight
  refine List.single_le_sum ?_ _ ?_
  · intro x hx
    obtain ⟨g, hg, hgx⟩ := List.mem_map.mp hx
    exact hgx ▸ hconf g (List.mem_of_mem_filter hg)
  · exact List.mem_map_of_mem _ (List.mem_filter.mpr ⟨hf, by simpa using hk⟩)

/-- Candidates absent from every frame have zero summed weight. -/
theorem sumWeight_of_not_mem (frames : List FrameResult) (k : String)
    (h : ∀ f ∈ frames, f.extraction.itemNumber ≠ some k) :
    sumWeight k frames = 0 := by
  unfold sumWeight
  have : frames.filter (fun f => f.extraction.itemNumber = some k) = [] := by
    rw [List.filter_eq_nil_iff]
    intro f hf
    simpa using h f hf
  rw [this]
  rfl

/-- C1: over every non-empty list of retained (successful, nonempty item
number, nonnegative confidence) extractions with positive total
confidence, the consensus item-number vote groups by exact string with
confidence-accumulated weights, the winner carries a maximal summed
weight, and `itemNumberConfidence` is the winning summed weight divided
by the total confidence over all retained frames. -/
theorem spec_C1_consensus_item_vote (frames : List FrameResult)
    (hsucc : ∀ f ∈ frames, ∃ k, f.extraction.itemNumber = some k ∧ k ≠ "")
    (hconf : ∀ f ∈ frames, 0 ≤ f.extraction.confidence)
    (htot : 0 < totalConfidenceOf frames) :
    ∃ w, (calculateConsensus frames).itemNumber = some w ∧
      (∃ f ∈ frames, f.extraction.itemNumber = some w) ∧
      (∀ k : String, sumWeight k frames ≤ sumWeight w frames) ∧
      (calculateConsensus frames).itemNumberConfidence =
        sumWeight w frames / totalConfidenceOf frames := by
  have hne : ∀ f ∈ frames, f.extraction.itemNumber ≠ some "" := by
    intro f hf h0
    obtain ⟨k, hk, hkne⟩ := hsucc f hf
    rw [hk] at h0
    exact hkne (Option.some_inj.mp h0)
  obtain ⟨hnd, hlk, hkeys⟩ := itemVotes_spec frames hne
  have hpb := pickBest_fold (itemVotes frames) none 0
  have hpick : pickBest (itemVotes frames) =
      (itemVotes frames).foldl
        (fun st kv => if kv.2 > st.2 then (some kv.1, kv.2) else st)
        (none, 0) := rfl
  obtain ⟨h0, hdom, hdisj⟩ := hpb
  rw [← hpick] at h0 hdom hdisj
  -- a strictly positive candidate exists
  obtain ⟨x, hx, hxpos⟩ := exists_pos_of_sum_pos _ htot
  obtain ⟨fpos, hfpos, hfx⟩ := List.mem_map.mp hx
  obtain ⟨kpos, hkpos, hkposne⟩ := hsucc fpos hfpos
  have hposw : 0 < sumWeight kpos frames :=
    lt_of_lt_of_le (hfx ▸ hxpos)
      (confidence_le_sumWeight frames hconf fpos hfpos kpos hkpos)
  have hkposkeys : kpos ∈ (itemVotes frames).map Prod.fst :=
    (hkeys kpos).mpr ⟨fpos, hfpos, hkpos⟩
  obtain ⟨ppos, hppos, hpposk⟩ := List.mem_map.mp hkposkeys
  have hpposw : ppos.2 = sumWeight kpos frames := by
    have := lookupWeight_of_mem _ hnd ppos hppos
    rw [hpposk] at this
    rw [← this, hlk kpos]
  rcases hdisj with hinit | ⟨kv, hkv, heq⟩
  · exfalso
    have := hdom ppos hppos
    rw [hinit] at this
    rw [hpposw] at this
    exact absurd (lt_of_lt_of_le hposw this) (lt_irrefl 0)
  · refine ⟨kv.1, ?_, ?_, ?_, ?_⟩
    · cases hfr : frames with
      | nil => rw [hfr] at htot; simp [totalConfidenceOf] at htot
      | cons f0 rest =>
        have hproj : (calculateConsensus (f0 :: rest)).itemNumber =
            (pickBest (itemVotes (f0 :: rest))).1 := rfl
        rw [hproj, ← hfr, heq]
    · have hmem : kv.1 ∈ (itemVotes frames).map Prod.fst :=
        List.mem_map_of_mem Prod.fst hkv
      exact (hkeys kv.1).mp hmem
    · intro k
      have hkvw : kv.2 = sumWeight kv.1 frames := by
        have := lookupWeight_of_mem _ hnd kv hkv
        rw [← this, hlk kv.1]
      by_cases hk : k ∈ (itemVotes frames).map Prod.fst
      · obtain ⟨p, hp, hpk⟩ := List.mem_map.mp hk
        have hpw : p.2 = sumWeight k frames := by
          have := lookupWeight_of_mem _ hnd p hp
          rw [hpk] at this
          rw [← this, hlk k]
        have := hdom p hp
        rw [heq] at this
        rw [← hpw, ← hkvw]
        exact this
      · have hnone : ∀ f ∈ frames, f.extraction.itemNumber ≠ some k := by
          intro f hf hcontra
          exact hk ((hkeys k).mpr ⟨f, hf, hcontra⟩)
        rw [sumWeight_of_not_mem frames k hnone, ← hkvw]
        have := h0
        rw [heq] at this
        exact this
    · have hkvw : kv.2 = sumWeight kv.1 frames := by
        have := lookupWeight_of_mem _ hnd kv hkv
        rw [← this, hlk kv.1]
      cases hfr : frames with
      | nil => rw [hfr] at htot; simp [totalConfidenceOf] at htot
      | cons f0 rest =>
        have hproj : (calculateConsensus (f0 :: rest)).itemNumberConfidence =
            (if totalConfidenceOf (f0 :: rest) > 0 then
              (pickBest (itemVotes (f0 :: rest))).2 /
                totalConfidenceOf (f0 :: rest)
            else 0) := rfl
        rw [hproj, ← hfr, if_pos htot, heq, hkvw]

/-- Successful extraction used in the consensus example. -/
def exampleExtraction (it : String) (conf : ℚ) : OCRExtraction :=
  { success := true, confidence := conf, itemNumber := some it,
    price := some (1699/100), priceEnding := some ".99", unitPrice := none,
    unitMeasure := none, description := none, hasAsterisk := false,
    error := none }

/-- The claim's example: item numbers 1234567, 1234567, 7654321 with
confidences 0.9, 0.8, 0.95. -/
def consensusExampleFrames : List FrameResult :=
  [{ extraction := exampleExtraction "1234567" (9/10), timestamp := 0 },
   { extraction := exampleExtraction "1234567" (8/10), timestamp := 100 },
   { extraction := exampleExtraction "7654321" (19/20), timestamp := 200 }]

/-- Witness for C1: the theorem applied to the claim's example, plus the
example's concrete values — winner "1234567" with confidence
1.7/2.65 = 34/53. -/
theorem spec_C1_consensus_item_vote_witness :
    (∃ w, (calculateConsensus consensusExampleFrames).itemNumber = some w ∧
      (∃ f ∈ consensusExampleFrames, f.extraction.itemNumber = some w) ∧
      (∀ k : String, sumWeight k consensusExampleFrames ≤
        sumWeight w consensusExampleFrames) ∧
      (calculateConsensus consensusExampleFrames).itemNumberConfidence =
        sumWeight w consensusExampleFrames /
          totalConfidenceOf consensusExampleFrames) ∧
    (calculateConsensus consensusExampleFrames).itemNumber = some "1234567" ∧
    (calculateConsensus consensusExampleFrames).itemNumberConfidence =
      34/53 := by
  have htot : totalConfidenceOf consensusExampleFrames = 53/20 := by
    with_unfolding_all rfl
  refine ⟨spec_C1_consensus_item_vote consensusExampleFrames ?_ ?_ ?_, ?_, ?_⟩
  · intro f hf
    simp only [consensusExampleFrames, List.mem_cons, List.not_mem_nil,
      or_false] at hf
    rcases hf with h | h | h <;> subst h <;> exact ⟨_, rfl, by decide⟩
  · intro f hf
    simp only [consensusExampleFrames, List.mem_cons, List.not_mem_nil,
      or_false] at hf
    rcases hf with h | h | h <;> subst h <;> norm_num [exampleExtraction]
  · rw [htot]
    norm_num
  · with_unfolding_all rfl
  · with_unfolding_all rfl
